import Mathlib

/-!
# Page replacement simulator (`pagerep.c`)

A shallow embedding of the paging simulation of `pagerep.c` (`paging_test`,
`optimal_swap`, `lru_swap`, `getlength`, `_atoi`) and proofs about it.

Modelling conventions.

* A C string is the list of its characters (as integers); the terminating NUL
  is implicit at the end of the list, and a `0` inside the list terminates the
  string earlier, as it would in C.
* C `int` values are `Int`; the counters of the program are bounded by the
  length of the reference string, so no overflow is modelled.
* Arrays are lists.  Every function that can run into undefined behaviour
  (an out-of-bounds array access, a read of a cell that was never written)
  returns an `Option`, and `none` stands for that undefined behaviour.
* The loops are structural recursions; where a loop is driven by a counter the
  recursion carries a bound on the number of iterations which is checked against
  the loop condition when it reaches zero.
* `paging_test` is the function up to its two printing calls: the value it
  returns and the array `hits` that it has filled.  `paging_test_printing` is the
  function with the calls `print_str(refstr)` and `print_hits(hits, ...)` that it
  makes before it returns; on a non-empty reference string over the pages
  `1 .. PAGE_COUNT` with at least one frame the two agree (`printing_defined`).
  `get_input` and `valid_input` are modelled on the list of the characters that
  `getchar` returns.  The texts of the messages and `main` are not modelled.
* A variable-length array declared with a length of 0 (`frames` when
  `frameCount` is 0, `hits` for the empty string) is modelled as an array without
  any cell, every access to which is out of bounds; ISO C leaves such a
  declaration undefined.  In the section on the empty reference string the
  theorem about `paging_test` asserts that its result is undefined, which holds
  under both readings; the theorems of the section on the frame count 0 describe
  steps of the program that touch no cell of the array `frames`.
-/

namespace PageRep

/-! ## Constants and helpers -/

/-- The macro `PAGE_COUNT`. -/
def PAGE_COUNT : Nat := 5

/-- The helper `_atoi`: `input - 48`. -/
def _atoi (input : Int) : Int := input - 48

/-- The helper `getlength`: the number of characters before the terminator. -/
def getlength : List Int → Int
  | [] => 0
  | c :: rest => if c ≠ 0 then getlength rest + 1 else 0

/-- The read `refstr[i]` of the loop condition of `paging_test`; one past the end
of the list sits the terminator. -/
def char_at (refstr : List Int) (i : Nat) : Int := refstr.getD i 0

/-- An array read `a[idx]`; `none` when `idx` is out of bounds. -/
def arr_get {α : Type} (a : List α) (idx : Int) : Option α :=
  if idx < 0 then none else a.get? idx.toNat

/-- An array write `a[idx] = v`; `none` when `idx` is out of bounds. -/
def arr_set {α : Type} (a : List α) (idx : Int) (v : α) : Option (List α) :=
  if idx < 0 ∨ (a.length : Int) ≤ idx then none else some (a.set idx.toNat v)

/-- A read of a cell of an `int` array some cells of which may never have been
written (`none` in the list): reading such a cell is undefined. -/
def cell_get (a : List (Option Int)) (idx : Int) : Option Int :=
  (arr_get a idx).join

/-! ## The replacement heuristics -/

/-- The array `next_use` / `last_use` after the initialisation loop
`for (i = 1; i <= PAGE_COUNT; i++) a[i] = 0;`: cell 0 is never written. -/
def init_use : List (Option Int) :=
  (List.range PAGE_COUNT).foldl (fun a i => a.set (i + 1) (some 0))
    (List.replicate (PAGE_COUNT + 1) none)

/-- The loop `for (i = 0; i < frameCount; i++) a[frames[i]] = 1;` over the
frames `fr = frames[0 .. frameCount-1]`. -/
def enable_use : List Int → List (Option Int) → Option (List (Option Int))
  | [], a => some a
  | f :: rest, a => (arr_set a f (some 1)).bind (enable_use rest)

/-- The forward scan of `optimal_swap`:
`while (i < getlength(refstr) && pendingCount) { ... i++; }`. -/
def optimal_scan (refstr : List Int) :
    Nat → Int → Int → List (Option Int) → Option (List (Option Int))
  | 0, i, pendingCount, next_use =>
      if i < getlength refstr ∧ pendingCount ≠ 0 then none else some next_use
  | fuel + 1, i, pendingCount, next_use =>
      if i < getlength refstr ∧ pendingCount ≠ 0 then
        (arr_get refstr i).bind fun c =>
        (cell_get next_use (_atoi c)).bind fun v =>
          if v = 1 then
            (arr_set next_use (_atoi c) (some 0)).bind fun next_use1 =>
              optimal_scan refstr fuel (i + 1) (pendingCount - 1) next_use1
          else optimal_scan refstr fuel (i + 1) pendingCount next_use
      else some next_use

/-- The backward scan of `lru_swap`:
`while (i >= 0 && pendingCount) { ... i--; }`. -/
def lru_scan (refstr : List Int) :
    Nat → Int → Int → List (Option Int) → Option (List (Option Int))
  | 0, i, pendingCount, last_use =>
      if 0 ≤ i ∧ pendingCount ≠ 0 then none else some last_use
  | fuel + 1, i, pendingCount, last_use =>
      if 0 ≤ i ∧ pendingCount ≠ 0 then
        (arr_get refstr i).bind fun c =>
        (cell_get last_use (_atoi c)).bind fun v =>
          if v = 1 then
            (arr_set last_use (_atoi c) (some 0)).bind fun last_use1 =>
              lru_scan refstr fuel (i - 1) (pendingCount - 1) last_use1
          else lru_scan refstr fuel (i - 1) pendingCount last_use
      else some last_use

/-- The inner loop `for (k = 0; k < frameCount; k++) if (frames[k] == i) return k;`
over `fr = frames[k ..]`: the index found, if any. -/
def find_frame (i : Int) : List Int → Int → Option Int
  | [], _ => none
  | f :: rest, k => if f = i then some k else find_frame i rest (k + 1)

/-- The loop "Find a good index" shared by both heuristics, over the page ids
still to be tried; the value `-1` is the one returned after the error message. -/
def find_good (use : List (Option Int)) (fr : List Int) : List Nat → Option Int
  | [] => some (-1)
  | i :: is =>
      (cell_get use (i : Int)).bind fun v =>
        if v = 1 then
          match find_frame (i : Int) fr 0 with
          | some k => some k
          | none => find_good use fr is
        else find_good use fr is

/-- The page ids `1, ..., PAGE_COUNT` in the order of the loop
`for (i = 1; i <= PAGE_COUNT; i++)`. -/
def page_ids : List Nat := (List.range PAGE_COUNT).map (· + 1)

/-- The function `optimal_swap`.  The array `frames` is read at the indices
`0 .. frameCount-1`; a shorter array makes these reads out of bounds. -/
def optimal_swap (refstr : List Int) (frames : List Int) (frameCount : Int)
    (startPosition : Int) : Option Int :=
  if frames.length < frameCount.toNat then none
  else
    let fr := frames.take frameCount.toNat
    (enable_use fr init_use).bind fun next_use =>
    (optimal_scan refstr (getlength refstr - (startPosition + 1)).toNat
        (startPosition + 1) (frameCount - 1) next_use).bind fun next_use1 =>
      find_good next_use1 fr page_ids

/-- The function `lru_swap`. -/
def lru_swap (refstr : List Int) (frames : List Int) (frameCount : Int)
    (startPosition : Int) : Option Int :=
  if frames.length < frameCount.toNat then none
  else
    let fr := frames.take frameCount.toNat
    (enable_use fr init_use).bind fun last_use =>
    (lru_scan refstr startPosition.toNat
        (startPosition - 1) (frameCount - 1) last_use).bind fun last_use1 =>
      find_good last_use1 fr page_ids

/-- The array `last_use` of `lru_swap` when it reaches its loop "Find a good
index": the part of `lru_swap` before that loop. -/
def lru_flags (refstr : List Int) (frames : List Int) (frameCount : Int)
    (startPosition : Int) : Option (List (Option Int)) :=
  if frames.length < frameCount.toNat then none
  else
    let fr := frames.take frameCount.toNat
    (enable_use fr init_use).bind fun last_use =>
      lru_scan refstr startPosition.toNat (startPosition - 1) (frameCount - 1) last_use

/-! ## The simulation engine -/

/-- The type of the parameter `swap_heuristic` of `paging_test`. -/
abbrev Heuristic := List Int → List Int → Int → Int → Option Int

/-- The variables of `paging_test` that live across iterations of its main
loop.  A cell of `hits` that was never written is `none`. -/
structure State where
  i : Nat
  fault_count : Int
  frames : List Int
  hits : List (Option Int)
  deriving DecidableEq

/-- The loop "Look up page in frame table" over `frames[j ..]`: the final values
of `frame_id` and `open_id`. -/
def lookup (page : Int) : List Int → Int → Int → Int × Int
  | [], _, open_id => (-1, open_id)
  | f :: rest, j, open_id =>
      if f = page then (j, open_id)
      else if f = 0 then lookup page rest (j + 1) j
      else lookup page rest (j + 1) open_id

/-- One iteration of the main loop of `paging_test`. -/
def paging_step (refstr : List Int) (frameCount : Int) (swap_heuristic : Heuristic)
    (st : State) : Option State :=
  let page := _atoi (char_at refstr st.i)
  let r := lookup page st.frames 0 (-1)
  if r.1 = -1 then
    (arr_set st.hits st.i (some 0)).bind fun hits =>
      if r.2 ≠ -1 then
        (arr_set st.frames r.2 page).bind fun frames =>
          some { i := st.i + 1, fault_count := st.fault_count + 1,
                 frames := frames, hits := hits }
      else
        (swap_heuristic refstr st.frames frameCount st.i).bind fun swap_id =>
        (arr_set st.frames swap_id page).bind fun frames =>
          some { i := st.i + 1, fault_count := st.fault_count + 1,
                 frames := frames, hits := hits }
  else
    (arr_set st.hits st.i (some 1)).bind fun hits =>
      some { i := st.i + 1, fault_count := st.fault_count,
             frames := st.frames, hits := hits }

/-- The main loop `while (refstr[i] != 0) { ... i++; }` of `paging_test`, run
for at most `n` iterations. -/
def paging_loop (refstr : List Int) (frameCount : Int) (swap_heuristic : Heuristic) :
    Nat → State → Option State
  | 0, st => some st
  | n + 1, st =>
      if char_at refstr st.i ≠ 0 then
        (paging_step refstr frameCount swap_heuristic st).bind
          (paging_loop refstr frameCount swap_heuristic n)
      else some st

/-- The state of `paging_test` when it enters its main loop: the frames are all
`0`, and `hits` has `getlength(refstr)` cells, none of them written. -/
def paging_init (refstr : List Int) (frameCount : Int) : State :=
  { i := 0, fault_count := 0,
    frames := List.replicate frameCount.toNat 0,
    hits := List.replicate (getlength refstr).toNat none }

/-- The state of `paging_test` after `n` iterations of its main loop (or at the
exit of the loop, when that comes earlier). -/
def paging_run (refstr : List Int) (frameCount : Int) (swap_heuristic : Heuristic)
    (n : Nat) : Option State :=
  paging_loop refstr frameCount swap_heuristic n (paging_init refstr frameCount)

/-- The function `paging_test` up to its two printing calls: the `fault_count`
that it returns, together with the array `hits` that it has filled (the function
with the printing calls is `paging_test_printing`).  The main loop leaves at the
terminator, which it meets after at most `refstr.length` iterations. -/
def paging_test (refstr : List Int) (frameCount : Int) (swap_heuristic : Heuristic) :
    Option (Int × List (Option Int)) :=
  (paging_run refstr frameCount swap_heuristic refstr.length).map
    fun st => (st.fault_count, st.hits)

/-- The reference string made of the digits of the given pages. -/
def digits (pages : List Int) : List Int := pages.map (· + 48)

/-- A reference string over the pages `1 .. PAGE_COUNT`: every character is one
of the digits `'1' .. '5'`, which is what `valid_input` lets through. -/
def valid_string (refstr : List Int) : Prop :=
  ∀ c ∈ refstr, 1 ≤ _atoi c ∧ _atoi c ≤ (PAGE_COUNT : Int)

instance (refstr : List Int) : Decidable (valid_string refstr) := by
  unfold valid_string; infer_instance

/-- The pages of a reference string. -/
def pages (refstr : List Int) : List Int := refstr.map _atoi

/-- The number of distinct pages of a reference string. -/
def distinct_pages (refstr : List Int) : Nat := (pages refstr).dedup.length

/-- The reference string `1,2,3,4,1,2,5,1,2,3,4,5`. -/
def belady_string : List Int := digits [1, 2, 3, 4, 1, 2, 5, 1, 2, 3, 4, 5]

/-! ## Definitions used in the proofs -/

/-- The array `a` (a `next_use` or `last_use`) flags exactly the pages of `F`
among `1 .. PAGE_COUNT`, and all its cells for these pages hold 0 or 1. -/
def Rep (a : List (Option Int)) (F : Finset Int) : Prop :=
  a.length = PAGE_COUNT + 1 ∧
    ∀ p : Int, 1 ≤ p → p ≤ 5 → cell_get a p = some (if p ∈ F then 1 else 0)

/-- The scans of the two heuristics on the set of flagged pages: `w` lists the
pages in the order in which the scan meets them, `pc` is `pendingCount`. -/
def scanF : List Int → Nat → Finset Int → Finset Int
  | [], _, F => F
  | p :: w, pc, F =>
      if pc = 0 then F
      else if p ∈ F then scanF w (pc - 1) (F.erase p) else scanF w pc F

/-- A full frame table: every slot holds a page of `1 .. PAGE_COUNT`, and no
page is in two slots. -/
def full_table (frames : List Int) : Prop :=
  (∀ f ∈ frames, 1 ≤ f ∧ f ≤ (PAGE_COUNT : Int)) ∧ frames.Nodup

/-- The invariant of the array `frames`: every slot holds 0 or a page of
`1 .. PAGE_COUNT`, and no page is in two slots. -/
def frame_inv (frames : List Int) : Prop :=
  (∀ f ∈ frames, f = 0 ∨ (1 ≤ f ∧ f ≤ (PAGE_COUNT : Int))) ∧
    ∀ (j k : Nat) (hj : j < frames.length) (hk : k < frames.length),
      frames[j] ≠ 0 → frames[j] = frames[k] → j = k

/-- The set of the pages held in the frames. -/
def resident (frames : List Int) : Finset Int := frames.toFinset.erase 0

/-- The invariant of the main loop of `paging_test` with `n` frames on `refstr`:
the position is within the string, `frames` has its `n` slots and satisfies
`frame_inv`, the cells of `hits` before the position hold 0 or 1 and the others
were never written, and `fault_count` is the number of cells of `hits` holding 0. -/
structure GoodState (refstr : List Int) (n : Nat) (st : State) : Prop where
  i_le : st.i ≤ refstr.length
  frames_len : st.frames.length = n
  inv : frame_inv st.frames
  trace : ∃ tr : List (Option Int),
    st.hits = tr ++ List.replicate (refstr.length - st.i) none ∧ tr.length = st.i ∧
    (∀ e ∈ tr, e = some 0 ∨ e = some 1) ∧ st.fault_count = (tr.count (some 0) : Int)

/-- What `paging_test` needs from its heuristic on `refstr` with `n` frames: on a
full frame table it returns the index of a slot. -/
def swap_ok (refstr : List Int) (n : Nat) (swap_heuristic : Heuristic) : Prop :=
  ∀ (frames : List Int) (i : Nat), full_table frames → frames.length = n →
    i < refstr.length →
    ∃ k : Nat, k < n ∧ swap_heuristic refstr frames (n : Int) (i : Int) = some (k : Int)

/-- The page `v` is needed by the future `w` no sooner than any page of `X`:
whenever `v` occurs among the first `m` pages of `w`, so do all the pages of `X`. -/
def farthest (X : Finset Int) (w : List Int) (v : Int) : Prop :=
  ∀ m : Nat, v ∈ w.take m → ∀ y ∈ X, y ∈ w.take m

/-- The runs of the simulation engine with `k` frames, on the sets of resident
pages: `Run k V hist X w c` says that from the resident set `X`, with the pages
`hist` already referenced (the latest first), the pages `w` can be processed with
`c` faults, every victim `v` satisfying `V hist X w2 v`, where `w2` is the future
after the faulting page. -/
inductive Run (k : Nat) (V : List Int → Finset Int → List Int → Int → Prop) :
    List Int → Finset Int → List Int → Nat → Prop
  | done (hist : List Int) (X : Finset Int) : Run k V hist X [] 0
  | hit {hist : List Int} {X : Finset Int} {r : Int} {w : List Int} {c : Nat} :
      r ∈ X → Run k V (r :: hist) X w c → Run k V hist X (r :: w) c
  | load {hist : List Int} {X : Finset Int} {r : Int} {w : List Int} {c : Nat} :
      r ∉ X → X.card < k → Run k V (r :: hist) (insert r X) w c →
      Run k V hist X (r :: w) (c + 1)
  | evict {hist : List Int} {X : Finset Int} {r : Int} {w : List Int} {c : Nat}
      {v : Int} :
      r ∉ X → X.card = k → v ∈ X → V hist X w v →
      Run k V (r :: hist) (insert r (X.erase v)) w c → Run k V hist X (r :: w) (c + 1)

/-- The demand-paging schedules with at most `k` resident pages: on a fault the
page is brought in and any pages may be dropped. -/
inductive Sched (k : Nat) : Finset Int → List Int → Nat → Prop
  | done (Y : Finset Int) : Sched k Y [] 0
  | hit {Y : Finset Int} {r : Int} {w : List Int} {c : Nat} :
      r ∈ Y → Sched k Y w c → Sched k Y (r :: w) c
  | miss {Y Y2 : Finset Int} {r : Int} {w : List Int} {c : Nat} :
      r ∉ Y → r ∈ Y2 → Y2 ⊆ insert r Y → Y2.card ≤ k → Sched k Y2 w c →
      Sched k Y (r :: w) (c + 1)

/-- The number of pages of `Z` that occur in the list `l`. -/
def cnt (Z : Finset Int) (l : List Int) : Nat := (Z.filter (· ∈ l)).card

/-- The victim rule of Belady's algorithm. -/
def opt_rule : List Int → Finset Int → List Int → Int → Prop :=
  fun _ X w v => farthest X w v

/-- The pages of `hist` (the latest reference first), each once, from the most
recently referenced to the least recently referenced: the LRU stack. -/
def recency : List Int → List Int
  | [] => []
  | p :: hist => p :: (recency hist).erase p

/-- The number of faults of LRU with `k` frames on the pages `w`, from the LRU
stack `s`: a page faults when it is not among the first `k` pages of the stack. -/
def lru_count (k : Nat) : List Int → List Int → Nat
  | _, [] => 0
  | s, p :: w => (if p ∈ s.take k then 0 else 1) + lru_count k (p :: s.erase p) w

/-- The victim rule of `lru_swap` with `k` frames: a page left flagged by the
backward scan. -/
def lru_rule (k : Nat) : List Int → Finset Int → List Int → Int → Prop :=
  fun hist X _ v => v ∈ scanF hist (k - 1) X

/-- The heuristic follows the victim rule `V` in `paging_test` on `refstr` with
`n` frames: on a full frame table, at position `i`, it returns the index of a
slot whose page satisfies `V` for the pages referenced before `i` (the latest
first), the resident pages, and the pages referenced after `i`. -/
def swap_rule (refstr : List Int) (n : Nat) (swap_heuristic : Heuristic)
    (V : List Int → Finset Int → List Int → Int → Prop) : Prop :=
  ∀ (frames : List Int) (i : Nat), full_table frames → frames.length = n →
    i < refstr.length →
    ∃ k : Nat, ∃ hk : k < frames.length,
      swap_heuristic refstr frames (n : Int) (i : Int) = some (k : Int) ∧
      V ((pages refstr).take i).reverse (resident frames)
        ((pages refstr).drop (i + 1)) frames[k]

instance (frames : List Int) : Decidable (full_table frames) := by
  unfold full_table; infer_instance

/-- The least index `i ≥ b` at which the page `x` is found, when the list `l`
holds the pages at the indices `b, b + 1, ...`. -/
def first_index_from : List Int → Nat → Int → Option Nat
  | [], _, _ => none
  | y :: rest, b, x => if y = x then some b else first_index_from rest (b + 1) x

/-- The greatest index at which the page `x` is found, when the list `l` holds
the pages at the indices `b, b + 1, ...`. -/
def last_index_from : List Int → Nat → Int → Option Nat
  | [], _, _ => none
  | y :: rest, b, x =>
      match last_index_from rest (b + 1) x with
      | some i => some i
      | none => if y = x then some b else none

/-- The next use of the page `x` after the position `p` of the pages `s`: the
least index `i > p` with `s[i] = x`, and infinite when `x` does not occur after
`p`. -/
def nextUse (s : List Int) (p : Nat) (x : Int) : WithTop Nat :=
  match first_index_from (s.drop (p + 1)) (p + 1) x with
  | some i => (i : WithTop Nat)
  | none => ⊤

/-- The last use of the page `x` before the position `p` of the pages `s`: the
greatest index `i < p` with `s[i] = x`, and minus infinity when `x` does not
occur before `p`. -/
def lastUse (s : List Int) (p : Nat) (x : Int) : WithBot Nat :=
  match last_index_from (s.take p) 0 x with
  | some i => (i : WithBot Nat)
  | none => ⊥

/-- The state reached by `paging_test` with `optimal_swap` and 3 frames after 3
iterations on `1,2,3,4,1,2,5,1,2,3,4,5`. -/
def belady_state_3 : State :=
  { i := 3, fault_count := 3, frames := [3, 2, 1],
    hits := [some 0, some 0, some 0, none, none, none, none, none, none, none, none, none] }

/-! ## Input and output -/

/-- A read `refstr[j]` of a string: the characters and the terminator are there to
be read, what follows the terminator is outside the string. -/
def str_get (refstr : List Int) (j : Nat) : Option Int :=
  if (j : Int) ≤ getlength refstr then some (char_at refstr j) else none

/-- The loop of `print_str` and its last `printf`, from the index `i`: the
characters printed. -/
def print_str_loop (refstr : List Int) : Nat → Nat → Option (List Int)
  | 0, _ => none
  | fuel + 1, i =>
      (str_get refstr (i + 1)).bind fun next =>
        if next ≠ 0 then
          (str_get refstr i).bind fun c =>
            (print_str_loop refstr fuel (i + 1)).map fun printed => c :: printed
        else (str_get refstr i).map fun c => [c]

/-- The function `print_str`: the characters that it prints. -/
def print_str (refstr : List Int) : Option (List Int) :=
  print_str_loop refstr (refstr.length + 1) 0

/-- The mark that `print_hits` prints for a cell of `hits`: 1 for `o` (the cell is
not 0), 0 for `x`. -/
def hit_mark (h : Int) : Int := if h ≠ 0 then 1 else 0

/-- The loop `for (i = 0; i < length-1; i++)` of `print_hits` and the statement
that follows it, which prints `hits[i]` once more: the marks printed. -/
def print_hits_loop (hits : List (Option Int)) (length : Int) :
    Nat → Int → Option (List Int)
  | 0, i =>
      if i < length - 1 then none else (cell_get hits i).map fun h => [hit_mark h]
  | fuel + 1, i =>
      if i < length - 1 then
        (cell_get hits i).bind fun h =>
          (print_hits_loop hits length fuel (i + 1)).map fun printed =>
            hit_mark h :: printed
      else (cell_get hits i).map fun h => [hit_mark h]

/-- The function `print_hits`: the marks that it prints. -/
def print_hits (hits : List (Option Int)) (length : Int) : Option (List Int) :=
  print_hits_loop hits length (length - 1).toNat 0

/-- The function `paging_test` with the two calls that it makes before it
returns, `print_str(refstr)` and `print_hits(hits, getlength(refstr))`: the fault
count returned, the string printed and the trace printed. -/
def paging_test_printing (refstr : List Int) (frameCount : Int)
    (swap_heuristic : Heuristic) : Option (Int × List Int × List Int) :=
  (paging_run refstr frameCount swap_heuristic refstr.length).bind fun st =>
    (print_str refstr).bind fun shown =>
      (print_hits st.hits (getlength refstr)).bind fun trace =>
        some (st.fault_count, shown, trace)

/-- The iteration of the main loop from the state `st` reaches the call
`swap_id = swap_heuristic(...)`: the lookup ends with `frame_id == -1` and
`open_id == -1`. -/
def calls_swap (refstr : List Int) (st : State) : Bool :=
  decide ((lookup (_atoi (char_at refstr st.i)) st.frames 0 (-1)).1 = -1 ∧
    (lookup (_atoi (char_at refstr st.i)) st.frames 0 (-1)).2 = -1)

/-- The statements `fault_count++; hits[i] = 0;` of a page miss: the state in
which the frame for the page is then chosen.  An iteration for which `calls_swap`
holds is these statements, then the call of the heuristic, then the store into
`frames` (`paging_step_at_swap`). -/
def miss_state (st : State) : Option State :=
  (arr_set st.hits st.i (some 0)).map fun hits =>
    { i := st.i, fault_count := st.fault_count + 1, frames := st.frames, hits := hits }

theorem valid_string_cons {c : Int} {rest : List Int} (h : valid_string (c :: rest)) :
    (1 ≤ _atoi c ∧ _atoi c ≤ 5) ∧ valid_string rest := by
  refine ⟨?_, fun d hd => h d (List.mem_cons_of_mem _ hd)⟩
  have := h c (List.mem_cons_self _ _)
  simpa [PAGE_COUNT] using this

theorem getlength_valid {refstr : List Int} (h : valid_string refstr) :
    getlength refstr = refstr.length := by
  induction refstr with
  | nil => rfl
  | cons c rest ih =>
    obtain ⟨hc, hrest⟩ := valid_string_cons h
    have hc0 : c ≠ 0 := by
      intro h0; subst h0; simp [_atoi] at hc
    simp [getlength, hc0, ih hrest]

theorem char_at_lt {refstr : List Int} {i : Nat} (hi : i < refstr.length) :
    char_at refstr i = refstr[i] := by
  simp [char_at, List.getD_eq_getElem?_getD, List.getElem?_eq_getElem hi]

theorem char_at_ge {refstr : List Int} {i : Nat} (hi : refstr.length ≤ i) :
    char_at refstr i = 0 := by
  simp [char_at, List.getD_eq_getElem?_getD, List.getElem?_eq_none hi]

theorem valid_getElem {refstr : List Int} (h : valid_string refstr) {i : Nat}
    (hi : i < refstr.length) : 1 ≤ _atoi refstr[i] ∧ _atoi refstr[i] ≤ 5 := by
  have := h refstr[i] (List.getElem_mem hi)
  simpa [PAGE_COUNT] using this

theorem char_at_ne_zero_iff {refstr : List Int} (h : valid_string refstr) (i : Nat) :
    char_at refstr i ≠ 0 ↔ i < refstr.length := by
  constructor
  · intro hne
    by_contra hge
    exact hne (char_at_ge (Nat.le_of_not_lt hge))
  · intro hi
    rw [char_at_lt hi]
    have := (valid_getElem h hi).1
    intro h0
    rw [h0] at this
    simp [_atoi] at this

theorem pages_length (refstr : List Int) : (pages refstr).length = refstr.length := by
  simp [pages]

theorem pages_getElem {refstr : List Int} {i : Nat} (hi : i < refstr.length)
    (hp : i < (pages refstr).length) : (pages refstr)[i] = _atoi refstr[i] := by
  simp [pages]

theorem arr_get_nat {α : Type} (a : List α) (k : Nat) : arr_get a (k : Int) = a[k]? := by
  simp [arr_get]

theorem arr_set_nat {α : Type} {a : List α} {k : Nat} (hk : k < a.length) (v : α) :
    arr_set a (k : Int) v = some (a.set k v) := by
  simp [arr_set, hk]

theorem arr_set_nil {α : Type} (idx : Int) (v : α) : arr_set ([] : List α) idx v = none := by
  have : idx < 0 ∨ ((([] : List α).length : Nat) : Int) ≤ idx := by
    simp only [List.length_nil, Nat.cast_zero]; omega
  rw [arr_set, if_pos this]

theorem arr_set_neg_one {α : Type} (a : List α) (v : α) : arr_set a (-1) v = none := by
  simp [arr_set]

/-! ## Proofs: the arrays `next_use` and `last_use` -/

theorem cell_get_set {a : List (Option Int)} {p q : Int} (hp0 : 0 ≤ p)
    (hp : p < a.length) (hq0 : 0 ≤ q) (v : Option Int) :
    cell_get (a.set p.toNat v) q = if q = p then v else cell_get a q := by
  have hq : ¬ q < 0 := by omega
  by_cases hqp : q = p
  · subst hqp
    have : q.toNat < a.length := by omega
    simp [cell_get, arr_get, hq, List.getElem?_set, this]
  · have hne : ¬ p.toNat = q.toNat := by omega
    simp [cell_get, arr_get, hq, hqp, List.getElem?_set, hne]

theorem rep_init : Rep init_use ∅ := by
  refine ⟨rfl, fun p h1 h5 => ?_⟩
  have : p = 1 ∨ p = 2 ∨ p = 3 ∨ p = 4 ∨ p = 5 := by omega
  rcases this with h | h | h | h | h <;> subst h <;> rfl

theorem rep_set_one {a : List (Option Int)} {F : Finset Int} (h : Rep a F) {p : Int}
    (h1 : 1 ≤ p) (h5 : p ≤ 5) :
    ∃ b, arr_set a p (some 1) = some b ∧ Rep b (insert p F) := by
  obtain ⟨hlen, hcell⟩ := h
  have hlen6 : a.length = 6 := hlen
  refine ⟨a.set p.toNat (some 1), ?_, ?_, ?_⟩
  · have : ¬ (p < 0 ∨ (a.length : Int) ≤ p) := by omega
    simp [arr_set, this]
  · simpa using hlen
  · intro q hq1 hq5
    rw [cell_get_set (by omega) (by omega) (by omega)]
    by_cases hqp : q = p
    · simp [hqp]
    · simp [hqp, hcell q hq1 hq5]

theorem rep_set_zero {a : List (Option Int)} {F : Finset Int} (h : Rep a F) {p : Int}
    (h1 : 1 ≤ p) (h5 : p ≤ 5) :
    ∃ b, arr_set a p (some 0) = some b ∧ Rep b (F.erase p) := by
  obtain ⟨hlen, hcell⟩ := h
  have hlen6 : a.length = 6 := hlen
  refine ⟨a.set p.toNat (some 0), ?_, ?_, ?_⟩
  · have : ¬ (p < 0 ∨ (a.length : Int) ≤ p) := by omega
    simp [arr_set, this]
  · simpa using hlen
  · intro q hq1 hq5
    rw [cell_get_set (by omega) (by omega) (by omega)]
    by_cases hqp : q = p
    · simp [hqp]
    · simp [hqp, hcell q hq1 hq5]

theorem rep_enable {fr : List Int} (hfr : ∀ f ∈ fr, 1 ≤ f ∧ f ≤ 5) :
    ∀ {a : List (Option Int)} {F : Finset Int}, Rep a F →
      ∃ b, enable_use fr a = some b ∧ Rep b (F ∪ fr.toFinset) := by
  induction fr with
  | nil => intro a F h; exact ⟨a, rfl, by simpa using h⟩
  | cons f rest ih =>
    intro a F h
    obtain ⟨hf1, hf5⟩ := hfr f (List.mem_cons_self _ _)
    obtain ⟨b, hb, hrep⟩ := rep_set_one h hf1 hf5
    obtain ⟨c, hc, hrepc⟩ := ih (fun g hg => hfr g (List.mem_cons_of_mem _ hg)) hrep
    refine ⟨c, by simp [enable_use, hb, hc], ?_⟩
    have : F ∪ (f :: rest).toFinset = insert f F ∪ rest.toFinset := by
      ext x; simp
    rw [this]; exact hrepc

/-! ## Proofs: the scans -/

theorem scanF_subset : ∀ (w : List Int) (pc : Nat) (F : Finset Int), scanF w pc F ⊆ F := by
  intro w
  induction w with
  | nil => intro pc F; simp [scanF]
  | cons p w ih =>
    intro pc F
    unfold scanF
    split_ifs with h0 hp
    · exact Finset.Subset.refl _
    · exact (ih _ _).trans (Finset.erase_subset _ _)
    · exact ih _ _

theorem scanF_card : ∀ (w : List Int) (pc : Nat) (F : Finset Int),
    F.card ≤ (scanF w pc F).card + pc := by
  intro w
  induction w with
  | nil => intro pc F; simp [scanF]
  | cons p w ih =>
    intro pc F
    unfold scanF
    split_ifs with h0 hp
    · omega
    · have := ih (pc - 1) (F.erase p)
      rw [Finset.card_erase_of_mem hp] at this
      omega
    · exact ih _ _

/-- A page left flagged by a scan that started with at most `pc + 1` flagged
pages is met by the scan only after all the other flagged pages. -/
theorem scanF_far : ∀ (w : List Int) (pc : Nat) (F : Finset Int), F.card ≤ pc + 1 →
    ∀ v ∈ scanF w pc F, ∀ m : Nat, v ∈ w.take m → ∀ y ∈ F, y ∈ w.take m := by
  intro w
  induction w with
  | nil => intro pc F _ v _ m hv; simp at hv
  | cons p w ih =>
    intro pc F hcard v hv m hvm y hy
    cases m with
    | zero => simp at hvm
    | succ m =>
      rw [List.take_succ_cons] at hvm ⊢
      unfold scanF at hv
      split_ifs at hv with h0 hp
      · -- `pc = 0`: `F` is a singleton
        have h1 : F.card ≤ 1 := by omega
        have := Finset.card_le_one.mp h1 v hv y hy
        rw [← this]; exact hvm
      · have hvp : v ≠ p := fun h => by
          have := scanF_subset _ _ _ hv
          rw [h] at this
          simp at this
        have hvm2 : v ∈ w.take m := by
          rcases List.mem_cons.mp hvm with h | h
          · exact absurd h hvp
          · exact h
        by_cases hyp : y = p
        · rw [hyp]; exact List.mem_cons_self _ _
        · have hc : (F.erase p).card ≤ (pc - 1) + 1 := by
            rw [Finset.card_erase_of_mem hp]; omega
          exact List.mem_cons_of_mem _
            (ih (pc - 1) (F.erase p) hc v hv m hvm2 y (Finset.mem_erase.mpr ⟨hyp, hy⟩))
      · have hvF := scanF_subset _ _ _ hv
        have hvp : v ≠ p := fun h => hp (h ▸ hvF)
        have hvm2 : v ∈ w.take m := by
          rcases List.mem_cons.mp hvm with h | h
          · exact absurd h hvp
          · exact h
        exact List.mem_cons_of_mem _ (ih pc F hcard v hv m hvm2 y hy)

theorem scanF_zero (w : List Int) (F : Finset Int) : scanF w 0 F = F := by
  cases w <;> simp [scanF]

theorem pages_drop {refstr : List Int} {i : Nat} (hi : i < refstr.length) :
    (pages refstr).drop i = _atoi refstr[i] :: (pages refstr).drop (i + 1) := by
  have hp : i < (pages refstr).length := by simpa [pages] using hi
  rw [List.drop_eq_getElem_cons hp, pages_getElem hi hp]

theorem pages_take_reverse {refstr : List Int} {i : Nat} (hi : i < refstr.length) :
    ((pages refstr).take (i + 1)).reverse
      = _atoi refstr[i] :: ((pages refstr).take i).reverse := by
  have hp : i < (pages refstr).length := by simpa [pages] using hi
  rw [List.take_succ, List.getElem?_eq_getElem hp, pages_getElem hi hp]
  simp

/-- The forward scan of `optimal_swap` from position `i` returns, and acts on the
flags as `scanF` on the pages from position `i` on. -/
theorem optimal_scan_spec {refstr : List Int} (hv : valid_string refstr) :
    ∀ (fuel i pc : Nat) (a : List (Option Int)) (F : Finset Int),
      refstr.length ≤ i + fuel → Rep a F →
      ∃ b, optimal_scan refstr fuel (i : Int) (pc : Int) a = some b ∧
        Rep b (scanF ((pages refstr).drop i) pc F) := by
  intro fuel
  induction fuel with
  | zero =>
    intro i pc a F hlen h
    have hd : (pages refstr).drop i = [] := by
      apply List.drop_eq_nil_of_le; rw [pages_length]; omega
    have hc : ¬ ((i : Int) < getlength refstr ∧ (pc : Int) ≠ 0) := by
      rw [getlength_valid hv]; omega
    refine ⟨a, by simp only [optimal_scan, hc, if_false], ?_⟩
    rw [hd]; simpa [scanF] using h
  | succ fuel ih =>
    intro i pc a F hlen h
    by_cases hi : i < refstr.length
    · by_cases hpc : pc = 0
      · subst hpc
        refine ⟨a, by simp [optimal_scan], ?_⟩
        rw [scanF_zero]; exact h
      · have hc : (i : Int) < getlength refstr ∧ (pc : Int) ≠ 0 := by
          rw [getlength_valid hv]; omega
        obtain ⟨h1, h5⟩ := valid_getElem hv hi
        rw [pages_drop hi]
        rw [optimal_scan, if_pos hc]
        simp only [arr_get_nat, List.getElem?_eq_getElem hi, Option.some_bind, h.2 _ h1 h5]
        by_cases hp : _atoi refstr[i] ∈ F
        · obtain ⟨b, hb, hrep⟩ := rep_set_zero h h1 h5
          obtain ⟨c, hc2, hrepc⟩ := ih (i + 1) (pc - 1) b _ (by omega) hrep
          have e1 : ((i : Int) + 1) = ((i + 1 : Nat) : Int) := by push_cast; rfl
          have e2 : ((pc : Int) - 1) = ((pc - 1 : Nat) : Int) := by omega
          refine ⟨c, ?_, ?_⟩
          · simp only [hp, if_true, hb, Option.some_bind, e1, e2, hc2]
          · simpa [scanF, hpc, hp] using hrepc
        · obtain ⟨c, hc2, hrepc⟩ := ih (i + 1) pc a F (by omega) h
          have e1 : ((i : Int) + 1) = ((i + 1 : Nat) : Int) := by push_cast; rfl
          refine ⟨c, ?_, ?_⟩
          · simp only [hp, if_false, e1, hc2]
            simp [hc2]
          · simpa [scanF, hpc, hp] using hrepc
    · have hd : (pages refstr).drop i = [] := by
        apply List.drop_eq_nil_of_le; rw [pages_length]; omega
      have hc : ¬ ((i : Int) < getlength refstr ∧ (pc : Int) ≠ 0) := by
        rw [getlength_valid hv]; omega
      refine ⟨a, by simp only [optimal_scan, hc, if_false], ?_⟩
      rw [hd]; simpa [scanF] using h

/-- The backward scan of `lru_swap` from position `j - 1` returns, and acts on
the flags as `scanF` on the first `j` pages, the latest first. -/
theorem lru_scan_spec {refstr : List Int} (hv : valid_string refstr) :
    ∀ (j pc : Nat) (a : List (Option Int)) (F : Finset Int),
      j ≤ refstr.length → Rep a F →
      ∃ b, lru_scan refstr j ((j : Int) - 1) (pc : Int) a = some b ∧
        Rep b (scanF ((pages refstr).take j).reverse pc F) := by
  intro j
  induction j with
  | zero =>
    intro pc a F _ h
    refine ⟨a, by simp [lru_scan], ?_⟩
    simpa [scanF] using h
  | succ j ih =>
    intro pc a F hlen h
    have hj : j < refstr.length := by omega
    have e0 : (((j + 1 : Nat) : Int) - 1) = (j : Int) := by push_cast; omega
    rw [e0]
    by_cases hpc : pc = 0
    · subst hpc
      refine ⟨a, by simp [lru_scan], ?_⟩
      rw [scanF_zero]; exact h
    · have hc : (0 : Int) ≤ (j : Int) ∧ (pc : Int) ≠ 0 := by omega
      obtain ⟨h1, h5⟩ := valid_getElem hv hj
      rw [pages_take_reverse hj]
      rw [lru_scan, if_pos hc]
      simp only [arr_get_nat, List.getElem?_eq_getElem hj, Option.some_bind, h.2 _ h1 h5]
      by_cases hp : _atoi refstr[j] ∈ F
      · obtain ⟨b, hb, hrep⟩ := rep_set_zero h h1 h5
        obtain ⟨c, hc2, hrepc⟩ := ih (pc - 1) b _ (by omega) hrep
        have e2 : ((pc : Int) - 1) = ((pc - 1 : Nat) : Int) := by omega
        refine ⟨c, ?_, ?_⟩
        · simp only [hp, if_true, hb, Option.some_bind, e2, hc2]
        · simpa [scanF, hpc, hp] using hrepc
      · obtain ⟨c, hc2, hrepc⟩ := ih pc a F (by omega) h
        refine ⟨c, ?_, ?_⟩
        · simp only [hp, if_false, hc2]
          simp [hc2]
        · simpa [scanF, hpc, hp] using hrepc

/-! ## Proofs: the loop "Find a good index" -/

theorem find_frame_none (i : Int) : ∀ (fr : List Int) (k0 : Int), i ∉ fr →
    find_frame i fr k0 = none := by
  intro fr
  induction fr with
  | nil => intro k0 _; rfl
  | cons f rest ih =>
    intro k0 h
    have hf : f ≠ i := fun e => h (e ▸ List.mem_cons_self _ _)
    have hr : i ∉ rest := fun e => h (List.mem_cons_of_mem _ e)
    simp [find_frame, hf, ih _ hr]

theorem find_frame_some (i : Int) : ∀ (fr : List Int) (k0 : Int), i ∈ fr →
    ∃ k : Nat, ∃ hk : k < fr.length, find_frame i fr k0 = some (k0 + k) ∧ fr[k] = i := by
  intro fr
  induction fr with
  | nil => intro k0 h; simp at h
  | cons f rest ih =>
    intro k0 h
    by_cases hf : f = i
    · exact ⟨0, by simp, by simp [find_frame, hf], by simp [hf]⟩
    · have hr : i ∈ rest := by
        rcases List.mem_cons.mp h with e | e
        · exact absurd e.symm hf
        · exact e
      obtain ⟨k, hk, hfind, hget⟩ := ih (k0 + 1) hr
      refine ⟨k + 1, by simp; omega, ?_, by simpa using hget⟩
      simp only [find_frame, hf, if_false, hfind]
      congr 1; push_cast; omega

theorem find_good_none {a : List (Option Int)} {F : Finset Int} (h : Rep a F)
    (fr : List Int) : ∀ ids : List Nat, (∀ q ∈ ids, 1 ≤ q ∧ q ≤ 5) →
      (∀ q ∈ ids, ¬ ((q : Int) ∈ F ∧ (q : Int) ∈ fr)) →
      find_good a fr ids = some (-1) := by
  intro ids
  induction ids with
  | nil => intro _ _; rfl
  | cons i is ih =>
    intro hids hno
    obtain ⟨h1, h5⟩ := hids i (List.mem_cons_self _ _)
    have hrec := ih (fun q hq => hids q (List.mem_cons_of_mem _ hq))
      (fun q hq => hno q (List.mem_cons_of_mem _ hq))
    rw [find_good, h.2 (i : Int) (by omega) (by omega), Option.some_bind]
    by_cases hF : (i : Int) ∈ F
    · have hfr : (i : Int) ∉ fr := fun e => hno i (List.mem_cons_self _ _) ⟨hF, e⟩
      simp [hF, find_frame_none _ _ _ hfr, hrec]
    · simp [hF, hrec]

/-- The loop "Find a good index" returns the slot of the smallest flagged page
that is in the frames, when there is one. -/
theorem find_good_some {a : List (Option Int)} {F : Finset Int} (h : Rep a F)
    (fr : List Int) : ∀ ids : List Nat, (∀ q ∈ ids, 1 ≤ q ∧ q ≤ 5) →
      ids.Pairwise (· < ·) →
      (∃ q ∈ ids, (q : Int) ∈ F ∧ (q : Int) ∈ fr) →
      ∃ k : Nat, ∃ hk : k < fr.length, find_good a fr ids = some (k : Int) ∧
        fr[k] ∈ F ∧ ∀ q ∈ ids, (q : Int) ∈ F → (q : Int) ∈ fr → fr[k] ≤ (q : Int) := by
  intro ids
  induction ids with
  | nil => intro _ _ hex; obtain ⟨q, hq, _⟩ := hex; simp at hq
  | cons i is ih =>
    intro hids hsorted hex
    obtain ⟨h1, h5⟩ := hids i (List.mem_cons_self _ _)
    obtain ⟨hlt, hsorted2⟩ := List.pairwise_cons.mp hsorted
    rw [find_good, h.2 (i : Int) (by omega) (by omega), Option.some_bind]
    by_cases hcand : (i : Int) ∈ F ∧ (i : Int) ∈ fr
    · obtain ⟨hF, hfr⟩ := hcand
      obtain ⟨k, hk, hfind, hget⟩ := find_frame_some (i : Int) fr 0 hfr
      refine ⟨k, hk, by simp [hF, hfind], by rw [hget]; exact hF, ?_⟩
      intro q hq _ _
      rw [hget]
      rcases List.mem_cons.mp hq with e | e
      · rw [e]
      · have := hlt q e; omega
    · have hex2 : ∃ q ∈ is, (q : Int) ∈ F ∧ (q : Int) ∈ fr := by
        obtain ⟨q, hq, hqc⟩ := hex
        rcases List.mem_cons.mp hq with e | e
        · exact absurd (e ▸ hqc) hcand
        · exact ⟨q, e, hqc⟩
      obtain ⟨k, hk, hfind, hkF, hmin⟩ :=
        ih (fun q hq => hids q (List.mem_cons_of_mem _ hq)) hsorted2 hex2
      refine ⟨k, hk, ?_, hkF, ?_⟩
      · by_cases hF : (i : Int) ∈ F
        · have hfr : (i : Int) ∉ fr := fun e => hcand ⟨hF, e⟩
          simp [hF, find_frame_none _ _ _ hfr, hfind]
        · simp [hF, hfind]
      · intro q hq hqF hqfr
        rcases List.mem_cons.mp hq with e | e
        · exact absurd (e ▸ ⟨hqF, hqfr⟩) hcand
        · exact hmin q e hqF hqfr

theorem mem_page_ids {p : Int} (h1 : 1 ≤ p) (h5 : p ≤ 5) :
    ∃ q ∈ page_ids, (q : Int) = p := by
  refine ⟨p.toNat, ?_, by omega⟩
  have : p.toNat = 1 ∨ p.toNat = 2 ∨ p.toNat = 3 ∨ p.toNat = 4 ∨ p.toNat = 5 := by omega
  rcases this with e | e | e | e | e <;> rw [e] <;> decide

theorem page_ids_range : ∀ q ∈ page_ids, 1 ≤ q ∧ q ≤ 5 := by decide

theorem page_ids_sorted : page_ids.Pairwise (· < ·) := by decide

/-- The end of both heuristics: from a non-empty set `G` of flagged pages, all of
them in the frames, the slot of the smallest one is returned. -/
theorem find_good_page_ids {a : List (Option Int)} {G : Finset Int} (h : Rep a G)
    {fr : List Int} (hfr : ∀ f ∈ fr, 1 ≤ f ∧ f ≤ 5) (hsub : ∀ q ∈ G, q ∈ fr)
    (hne : G.Nonempty) :
    ∃ k : Nat, ∃ hk : k < fr.length, find_good a fr page_ids = some (k : Int) ∧
      fr[k] ∈ G ∧ ∀ q ∈ G, fr[k] ≤ q := by
  obtain ⟨p, hp⟩ := hne
  obtain ⟨hp1, hp5⟩ := hfr p (hsub p hp)
  obtain ⟨q, hq, hqp⟩ := mem_page_ids hp1 hp5
  obtain ⟨k, hk, hfind, hkG, hmin⟩ := find_good_some h fr page_ids page_ids_range
    page_ids_sorted ⟨q, hq, by rw [hqp]; exact ⟨hp, hsub p hp⟩⟩
  refine ⟨k, hk, hfind, hkG, fun x hx => ?_⟩
  obtain ⟨hx1, hx5⟩ := hfr x (hsub x hx)
  obtain ⟨y, hy, hyx⟩ := mem_page_ids hx1 hx5
  have := hmin y hy (by rw [hyx]; exact hx) (by rw [hyx]; exact hsub x hx)
  rw [hyx] at this; exact this

/-! ## Proofs: the two heuristics on a full frame table -/

theorem full_table_range {frames : List Int} (h : full_table frames) :
    ∀ f ∈ frames, 1 ≤ f ∧ f ≤ 5 := by
  intro f hf
  have := h.1 f hf
  simpa [PAGE_COUNT] using this

/-- Both heuristics, after their scan: the scan started from the pages of a full
frame table and `pendingCount = frameCount - 1`, so a flagged page is left, and
the slot of the smallest page left is returned. -/
theorem after_scan {frames : List Int} (hfull : full_table frames)
    (hn : 1 ≤ frames.length) (w : List Int) {c : List (Option Int)}
    (hrep : Rep c (scanF w (frames.length - 1) frames.toFinset)) :
    ∃ k : Nat, ∃ hk : k < frames.length, find_good c frames page_ids = some (k : Int) ∧
      frames[k] ∈ scanF w (frames.length - 1) frames.toFinset ∧
      ∀ q ∈ scanF w (frames.length - 1) frames.toFinset, frames[k] ≤ q := by
  apply find_good_page_ids hrep (full_table_range hfull)
  · intro q hq
    exact List.mem_toFinset.mp (scanF_subset _ _ _ hq)
  · have hcard := scanF_card w (frames.length - 1) frames.toFinset
    rw [List.toFinset_card_of_nodup hfull.2] at hcard
    apply Finset.card_pos.mp
    omega

/-- The function `optimal_swap` on a full frame table: it returns a slot, the one
of the smallest page left flagged by the forward scan. -/
theorem optimal_swap_spec {refstr : List Int} (hv : valid_string refstr)
    {frames : List Int} (hfull : full_table frames) (hn : 1 ≤ frames.length) (i : Nat) :
    ∃ k : Nat, ∃ hk : k < frames.length,
      optimal_swap refstr frames (frames.length : Int) (i : Int) = some (k : Int) ∧
      frames[k] ∈ scanF ((pages refstr).drop (i + 1)) (frames.length - 1) frames.toFinset ∧
      ∀ q ∈ scanF ((pages refstr).drop (i + 1)) (frames.length - 1) frames.toFinset,
        frames[k] ≤ q := by
  obtain ⟨b, hb, hrepb⟩ := rep_enable (full_table_range hfull) rep_init
  have e1 : ((i : Int) + 1) = ((i + 1 : Nat) : Int) := by push_cast; rfl
  have e2 : ((frames.length : Int) - 1) = ((frames.length - 1 : Nat) : Int) := by omega
  obtain ⟨c, hc, hrepc⟩ := optimal_scan_spec hv
    (getlength refstr - ((i + 1 : Nat) : Int)).toNat (i + 1) (frames.length - 1) b _
    (by rw [getlength_valid hv]; omega) hrepb
  rw [Finset.empty_union] at hrepc
  obtain ⟨k, hk, hfind, hmem, hmin⟩ := after_scan hfull hn _ hrepc
  refine ⟨k, hk, ?_, hmem, hmin⟩
  simp only [optimal_swap, Int.toNat_ofNat, lt_irrefl, if_false, List.take_length, hb,
    Option.some_bind, e1, e2, hc, hfind]

/-- The function `lru_swap` on a full frame table: it returns a slot, the one of
the smallest page left flagged by the backward scan. -/
theorem lru_swap_spec {refstr : List Int} (hv : valid_string refstr)
    {frames : List Int} (hfull : full_table frames) (hn : 1 ≤ frames.length) {i : Nat}
    (hi : i ≤ refstr.length) :
    ∃ k : Nat, ∃ hk : k < frames.length,
      lru_swap refstr frames (frames.length : Int) (i : Int) = some (k : Int) ∧
      frames[k] ∈ scanF ((pages refstr).take i).reverse (frames.length - 1)
        frames.toFinset ∧
      ∀ q ∈ scanF ((pages refstr).take i).reverse (frames.length - 1) frames.toFinset,
        frames[k] ≤ q := by
  obtain ⟨b, hb, hrepb⟩ := rep_enable (full_table_range hfull) rep_init
  have e2 : ((frames.length : Int) - 1) = ((frames.length - 1 : Nat) : Int) := by omega
  obtain ⟨c, hc, hrepc⟩ := lru_scan_spec hv i (frames.length - 1) b _ hi hrepb
  rw [Finset.empty_union] at hrepc
  obtain ⟨k, hk, hfind, hmem, hmin⟩ := after_scan hfull hn _ hrepc
  refine ⟨k, hk, ?_, hmem, hmin⟩
  simp only [lru_swap, Int.toNat_ofNat, lt_irrefl, if_false, List.take_length, hb,
    Option.some_bind, e2, hc, hfind]

/-! ## Proofs: one iteration of the main loop -/

theorem lookup_found (page : Int) : ∀ (fr : List Int) (j o : Int), 0 ≤ j → page ∈ fr →
    (lookup page fr j o).1 ≠ -1 := by
  intro fr
  induction fr with
  | nil => intro j o _ h; simp at h
  | cons f rest ih =>
    intro j o hj h
    unfold lookup
    split_ifs with h1 h2
    · simp; omega
    · have : page ∈ rest := by
        rcases List.mem_cons.mp h with e | e
        · exact absurd e.symm h1
        · exact e
      exact ih _ _ (by omega) this
    · have : page ∈ rest := by
        rcases List.mem_cons.mp h with e | e
        · exact absurd e.symm h1
        · exact e
      exact ih _ _ (by omega) this

theorem lookup_not_found (page : Int) : ∀ (fr : List Int) (j o : Int), page ∉ fr →
    (lookup page fr j o).1 = -1 := by
  intro fr
  induction fr with
  | nil => intro j o _; rfl
  | cons f rest ih =>
    intro j o h
    have h1 : f ≠ page := fun e => h (e ▸ List.mem_cons_self _ _)
    have h2 : page ∉ rest := fun e => h (List.mem_cons_of_mem _ e)
    rw [lookup, if_neg h1]
    split_ifs
    · exact ih _ _ h2
    · exact ih _ _ h2

theorem lookup_no_open (page : Int) : ∀ (fr : List Int) (j o : Int), page ∉ fr →
    (0 : Int) ∉ fr → (lookup page fr j o).2 = o := by
  intro fr
  induction fr with
  | nil => intro j o _ _; rfl
  | cons f rest ih =>
    intro j o h h0
    have h1 : f ≠ page := fun e => h (e ▸ List.mem_cons_self _ _)
    have h2 : page ∉ rest := fun e => h (List.mem_cons_of_mem _ e)
    have h3 : f ≠ 0 := fun e => h0 (e ▸ List.mem_cons_self _ _)
    have h4 : (0 : Int) ∉ rest := fun e => h0 (List.mem_cons_of_mem _ e)
    simp [lookup, h1, h3, ih _ _ h2 h4]

/-- On a miss with an empty slot, `open_id` ends as the index of the last empty
slot. -/
theorem lookup_open (page : Int) : ∀ (fr : List Int) (j o : Int), page ∉ fr →
    (0 : Int) ∈ fr →
    ∃ k : Nat, ∃ hk : k < fr.length, (lookup page fr j o).2 = j + k ∧ fr[k] = 0 ∧
      ∀ (m : Nat) (hm : m < fr.length), k < m → fr[m] ≠ 0 := by
  intro fr
  induction fr with
  | nil => intro j o _ h; simp at h
  | cons f rest ih =>
    intro j o h h0
    have h1 : f ≠ page := fun e => h (e ▸ List.mem_cons_self _ _)
    have h2 : page ∉ rest := fun e => h (List.mem_cons_of_mem _ e)
    by_cases hr : (0 : Int) ∈ rest
    · have key : ∀ o2 : Int, ∃ k : Nat, ∃ hk : k < (f :: rest).length,
          (lookup page rest (j + 1) o2).2 = j + k ∧ (f :: rest)[k] = 0 ∧
          ∀ (m : Nat) (hm : m < (f :: rest).length), k < m → (f :: rest)[m] ≠ 0 := by
        intro o2
        obtain ⟨k, hk, hval, hz, hlast⟩ := ih (j + 1) o2 h2 hr
        refine ⟨k + 1, by simp; omega, by rw [hval]; push_cast; omega, by simpa using hz, ?_⟩
        intro m hm hkm
        cases m with
        | zero => omega
        | succ m =>
          simp only [List.getElem_cons_succ]
          exact hlast m (by simpa using hm) (by omega)
      rw [lookup, if_neg h1]
      split_ifs with hf0
      · exact key j
      · exact key o
    · have hf0 : f = 0 := by
        rcases List.mem_cons.mp h0 with e | e
        · exact e.symm
        · exact absurd e hr
      refine ⟨0, by simp, ?_, by simpa using hf0, ?_⟩
      · rw [lookup, if_neg h1, if_pos hf0, lookup_no_open page rest _ _ h2 hr]
        simp
      · intro m hm hkm
        cases m with
        | zero => omega
        | succ m =>
          simp only [List.getElem_cons_succ]
          intro e
          exact hr (e ▸ List.getElem_mem _)

theorem step_hit (refstr : List Int) (frameCount : Int) (swap_heuristic : Heuristic)
    {st : State} (hi : st.i < st.hits.length)
    (hmem : _atoi (char_at refstr st.i) ∈ st.frames) :
    paging_step refstr frameCount swap_heuristic st
      = some { i := st.i + 1, fault_count := st.fault_count, frames := st.frames,
               hits := st.hits.set st.i (some 1) } := by
  have h1 := lookup_found _ st.frames 0 (-1) (le_refl _) hmem
  simp only [paging_step, h1, if_false, arr_set_nat hi, Option.some_bind]

theorem step_open (refstr : List Int) (frameCount : Int) (swap_heuristic : Heuristic)
    {st : State} (hi : st.i < st.hits.length)
    (hmem : _atoi (char_at refstr st.i) ∉ st.frames) (h0 : (0 : Int) ∈ st.frames) :
    ∃ k : Nat, ∃ hk : k < st.frames.length, st.frames[k] = 0 ∧
      (∀ (m : Nat) (hm : m < st.frames.length), k < m → st.frames[m] ≠ 0) ∧
      paging_step refstr frameCount swap_heuristic st
        = some { i := st.i + 1, fault_count := st.fault_count + 1,
                 frames := st.frames.set k (_atoi (char_at refstr st.i)),
                 hits := st.hits.set st.i (some 0) } := by
  have h1 := lookup_not_found _ st.frames 0 (-1) hmem
  obtain ⟨k, hk, hval, hz, hlast⟩ := lookup_open _ st.frames 0 (-1) hmem h0
  refine ⟨k, hk, hz, hlast, ?_⟩
  have h2 : (lookup (_atoi (char_at refstr st.i)) st.frames 0 (-1)).2 ≠ -1 := by
    rw [hval]; omega
  have h3 : (lookup (_atoi (char_at refstr st.i)) st.frames 0 (-1)).2 = (k : Int) := by
    rw [hval]; omega
  have h4 : ¬ ((k : Int) = -1) := by omega
  simp only [paging_step, h1, if_true, arr_set_nat hi, Option.some_bind, ne_eq,
    h3, h4, not_false_eq_true, arr_set_nat hk]

theorem step_full (refstr : List Int) (frameCount : Int) (swap_heuristic : Heuristic)
    {st : State} (hi : st.i < st.hits.length)
    (hmem : _atoi (char_at refstr st.i) ∉ st.frames) (h0 : (0 : Int) ∉ st.frames)
    {k : Nat} (hk : k < st.frames.length)
    (hswap : swap_heuristic refstr st.frames frameCount st.i = some (k : Int)) :
    paging_step refstr frameCount swap_heuristic st
      = some { i := st.i + 1, fault_count := st.fault_count + 1,
               frames := st.frames.set k (_atoi (char_at refstr st.i)),
               hits := st.hits.set st.i (some 0) } := by
  have h1 := lookup_not_found _ st.frames 0 (-1) hmem
  have h2 := lookup_no_open _ st.frames 0 (-1) hmem h0
  simp only [paging_step, h1, if_true, arr_set_nat hi, Option.some_bind, h2, ne_eq,
    not_true_eq_false, if_false, hswap, arr_set_nat hk]

/-! ## Proofs: the frame table and the set of resident pages -/

theorem mem_set_iff {fr : List Int} {k : Nat} (hk : k < fr.length) (p x : Int) :
    x ∈ fr.set k p ↔ x = p ∨ ∃ (j : Nat) (hj : j < fr.length), j ≠ k ∧ fr[j] = x := by
  constructor
  · intro h
    obtain ⟨j, hj, hx⟩ := List.mem_iff_getElem.mp h
    rw [List.getElem_set] at hx
    split_ifs at hx with hkj
    · exact Or.inl hx.symm
    · exact Or.inr ⟨j, by simpa using hj, fun e => hkj e.symm, hx⟩
  · rintro (h | ⟨j, hj, hjk, hx⟩)
    · subst h
      exact List.mem_iff_getElem.mpr ⟨k, by simpa using hk, by simp⟩
    · refine List.mem_iff_getElem.mpr ⟨j, by simpa using hj, ?_⟩
      rw [List.getElem_set, if_neg (fun e => hjk e.symm)]
      exact hx

theorem frame_inv_replicate (n : Nat) : frame_inv (List.replicate n 0) := by
  constructor
  · intro f hf
    exact Or.inl (List.eq_of_mem_replicate hf)
  · intro j k hj hk hne
    simp at hne

theorem frame_inv_set {fr : List Int} (h : frame_inv fr) {p : Int} (hp : p ∉ fr)
    (h1 : 1 ≤ p) (h5 : p ≤ 5) {k : Nat} (hk : k < fr.length) :
    frame_inv (fr.set k p) := by
  constructor
  · intro f hf
    rcases (mem_set_iff hk p f).mp hf with e | ⟨j, hj, _, e⟩
    · right; subst e; exact ⟨h1, by simpa [PAGE_COUNT] using h5⟩
    · exact h.1 f (e ▸ List.getElem_mem _)
  · intro a b ha hb hne heq
    have ha2 : a < fr.length := by simpa using ha
    have hb2 : b < fr.length := by simpa using hb
    rw [List.getElem_set] at hne heq
    rw [List.getElem_set] at heq
    by_cases hka : k = a
    · by_cases hkb : k = b
      · omega
      · rw [if_pos hka, if_neg hkb] at heq
        exact absurd (heq ▸ List.getElem_mem _) hp
    · by_cases hkb : k = b
      · rw [if_neg hka, if_pos hkb] at heq
        exact absurd (heq ▸ List.getElem_mem _) hp
      · rw [if_neg hka] at hne
        rw [if_neg hka, if_neg hkb] at heq
        exact h.2 a b ha2 hb2 hne heq

theorem full_of_inv {fr : List Int} (h : frame_inv fr) (h0 : (0 : Int) ∉ fr) :
    full_table fr := by
  constructor
  · intro f hf
    rcases h.1 f hf with e | e
    · exact absurd (e ▸ hf) h0
    · exact e
  · rw [List.nodup_iff_injective_get]
    intro a b hab
    have hne : fr[a.1] ≠ 0 := fun e => h0 (e ▸ List.getElem_mem _)
    exact Fin.ext (h.2 a.1 b.1 a.2 b.2 hne (by simpa using hab))

theorem mem_resident {fr : List Int} {x : Int} : x ∈ resident fr ↔ x ∈ fr ∧ x ≠ 0 := by
  simp [resident, and_comm]

theorem resident_replicate (n : Nat) : resident (List.replicate n 0) = ∅ := by
  ext x
  rw [mem_resident]
  constructor
  · rintro ⟨h, hne⟩
    exact absurd (List.eq_of_mem_replicate h) hne
  · intro h; simp at h

theorem resident_full {fr : List Int} (h0 : (0 : Int) ∉ fr) : resident fr = fr.toFinset := by
  ext x
  rw [mem_resident, List.mem_toFinset]
  exact ⟨fun h => h.1, fun h => ⟨h, fun e => h0 (e ▸ h)⟩⟩

theorem card_resident_full {fr : List Int} (h : full_table fr) :
    (resident fr).card = fr.length := by
  have h0 : (0 : Int) ∉ fr := fun e => by
    have := (h.1 0 e).1
    omega
  rw [resident_full h0, List.toFinset_card_of_nodup h.2]

theorem card_resident_le (fr : List Int) : (resident fr).card ≤ fr.length :=
  (Finset.card_erase_le).trans (List.toFinset_card_le fr)

theorem card_resident_lt {fr : List Int} (h0 : (0 : Int) ∈ fr) :
    (resident fr).card < fr.length := by
  have h1 : (resident fr).card < fr.toFinset.card :=
    Finset.card_erase_lt_of_mem (List.mem_toFinset.mpr h0)
  exact lt_of_lt_of_le h1 (List.toFinset_card_le fr)

/-- A page stored in an empty slot joins the resident pages. -/
theorem resident_set_open {fr : List Int} {k : Nat} (hk : k < fr.length)
    (hz : fr[k] = 0) {p : Int} (hp : p ≠ 0) :
    resident (fr.set k p) = insert p (resident fr) := by
  ext x
  rw [mem_resident, Finset.mem_insert, mem_resident, mem_set_iff hk]
  constructor
  · rintro ⟨h | ⟨j, hj, _, e⟩, hne⟩
    · exact Or.inl h
    · exact Or.inr ⟨e ▸ List.getElem_mem _, hne⟩
  · rintro (h | ⟨hx, hne⟩)
    · exact ⟨Or.inl h, h ▸ hp⟩
    · refine ⟨Or.inr ?_, hne⟩
      obtain ⟨j, hj, e⟩ := List.mem_iff_getElem.mp hx
      refine ⟨j, hj, fun ejk => ?_, e⟩
      subst ejk
      exact hne (e ▸ hz)

/-- A page stored in the slot of a victim of a full table replaces the victim
among the resident pages. -/
theorem resident_set_full {fr : List Int} (h : full_table fr) {k : Nat}
    (hk : k < fr.length) {p : Int} (hp : p ≠ 0) :
    resident (fr.set k p) = insert p ((resident fr).erase fr[k]) := by
  have hinj := List.nodup_iff_injective_get.mp h.2
  ext x
  rw [mem_resident, Finset.mem_insert, Finset.mem_erase, mem_resident, mem_set_iff hk]
  constructor
  · rintro ⟨h1 | ⟨j, hj, hjk, e⟩, hne⟩
    · exact Or.inl h1
    · refine Or.inr ⟨fun exk => hjk ?_, e ▸ List.getElem_mem _, hne⟩
      have : fr.get ⟨j, hj⟩ = fr.get ⟨k, hk⟩ := by simpa using e.trans exk
      exact congrArg Fin.val (hinj this)
  · rintro (h1 | ⟨hxk, hx, hne⟩)
    · exact ⟨Or.inl h1, h1 ▸ hp⟩
    · refine ⟨Or.inr ?_, hne⟩
      obtain ⟨j, hj, e⟩ := List.mem_iff_getElem.mp hx
      refine ⟨j, hj, fun ejk => hxk ?_, e⟩
      subst ejk
      exact e.symm

/-! ## Proofs: the invariant of the main loop -/

theorem good_init (refstr : List Int) (hv : valid_string refstr) (n : Nat) :
    GoodState refstr n (paging_init refstr (n : Int)) where
  i_le := Nat.zero_le _
  frames_len := by simp [paging_init]
  inv := by simpa [paging_init] using frame_inv_replicate n
  trace := ⟨[], by simp [paging_init, getlength_valid hv], rfl, by simp, by simp [paging_init]⟩

theorem good_hits_length {refstr : List Int} {n : Nat} {st : State}
    (h : GoodState refstr n st) : st.hits.length = refstr.length := by
  obtain ⟨tr, hh, hlen, _, _⟩ := h.trace
  have := h.i_le
  rw [hh, List.length_append, List.length_replicate, hlen]
  omega

/-- The trace part of the invariant after the write `hits[i] = v`. -/
theorem trace_after_write {refstr : List Int} {n : Nat} {st : State}
    (h : GoodState refstr n st) (hi : st.i < refstr.length) (v : Int)
    (hv : v = 0 ∨ v = 1) :
    ∃ tr : List (Option Int),
      st.hits.set st.i (some v) = tr ++ List.replicate (refstr.length - (st.i + 1)) none ∧
      tr.length = st.i + 1 ∧ (∀ e ∈ tr, e = some 0 ∨ e = some 1) ∧
      st.fault_count + (if v = 0 then 1 else 0) = (tr.count (some 0) : Int) := by
  obtain ⟨tr, hh, hlen, hall, hfc⟩ := h.trace
  refine ⟨tr ++ [some v], ?_, by simp [hlen], ?_, ?_⟩
  · have e : refstr.length - st.i = (refstr.length - (st.i + 1)) + 1 := by omega
    rw [hh, e, List.replicate_succ, List.set_append_right _ _ (by omega), hlen]
    simp
  · intro e he
    rcases List.mem_append.mp he with h1 | h1
    · exact hall e h1
    · rcases hv with hv | hv <;> simp [hv] at h1 <;> simp [h1]
  · rw [List.count_append, hfc]
    rcases hv with hv | hv <;> subst hv <;> simp [List.count_singleton]

theorem good_hit {refstr : List Int} {n : Nat} {st : State}
    (h : GoodState refstr n st) (hi : st.i < refstr.length) :
    GoodState refstr n
      ({ i := st.i + 1, fault_count := st.fault_count, frames := st.frames,
         hits := st.hits.set st.i (some 1) } : State) := by
  obtain ⟨tr, h1, h2, h3, h4⟩ := trace_after_write h hi 1 (Or.inr rfl)
  exact ⟨hi, h.frames_len, h.inv, tr, h1, h2, h3, by simpa using h4⟩

theorem good_miss {refstr : List Int} {n : Nat} {st : State}
    (h : GoodState refstr n st) (hi : st.i < refstr.length) {p : Int}
    (hp : p ∉ st.frames) (h1 : 1 ≤ p) (h5 : p ≤ 5) {k : Nat} (hk : k < st.frames.length) :
    GoodState refstr n
      ({ i := st.i + 1, fault_count := st.fault_count + 1, frames := st.frames.set k p,
         hits := st.hits.set st.i (some 0) } : State) := by
  obtain ⟨tr, e1, e2, e3, e4⟩ := trace_after_write h hi 0 (Or.inl rfl)
  exact ⟨hi, by simpa using h.frames_len, frame_inv_set h.inv hp h1 h5 hk,
    tr, e1, e2, e3, by simpa using e4⟩

/-- One iteration of the main loop from a state that satisfies the invariant, with
a heuristic that returns a slot on a full table: the iteration is defined, and it
keeps the invariant. -/
theorem step_good {refstr : List Int} (hv : valid_string refstr) {n : Nat}
    {swap_heuristic : Heuristic} (hs : swap_ok refstr n swap_heuristic) {st : State}
    (h : GoodState refstr n st) (hi : st.i < refstr.length) :
    ∃ st2, paging_step refstr (n : Int) swap_heuristic st = some st2 ∧
      GoodState refstr n st2 ∧ st2.i = st.i + 1 := by
  have hhl : st.i < st.hits.length := by rw [good_hits_length h]; exact hi
  obtain ⟨h1, h5⟩ := valid_getElem hv hi
  rw [← char_at_lt hi] at h1 h5
  by_cases hmem : _atoi (char_at refstr st.i) ∈ st.frames
  · exact ⟨_, step_hit refstr n swap_heuristic hhl hmem, good_hit h hi, rfl⟩
  · by_cases h0 : (0 : Int) ∈ st.frames
    · obtain ⟨k, hk, _, _, hstep⟩ := step_open refstr n swap_heuristic hhl hmem h0
      exact ⟨_, hstep, good_miss h hi hmem h1 h5 hk, rfl⟩
    · obtain ⟨k, hk, hswap⟩ := hs st.frames st.i (full_of_inv h.inv h0) h.frames_len hi
      have hk2 : k < st.frames.length := by rw [h.frames_len]; exact hk
      exact ⟨_, step_full refstr n swap_heuristic hhl hmem h0 hk2 hswap,
        good_miss h hi hmem h1 h5 hk2, rfl⟩

/-- Induction along the main loop: a property of the state that every iteration
keeps (and under which every iteration is defined) holds after any number of
iterations, and the loop advances by the number of iterations allowed, up to the
end of the string. -/
theorem loop_induct {refstr : List Int} (hv : valid_string refstr) (frameCount : Int)
    (swap_heuristic : Heuristic) (P : State → Prop)
    (hle : ∀ st, P st → st.i ≤ refstr.length)
    (hstep : ∀ st, P st → st.i < refstr.length →
      ∃ st2, paging_step refstr frameCount swap_heuristic st = some st2 ∧ P st2 ∧
        st2.i = st.i + 1) :
    ∀ (m : Nat) (st : State), P st →
      ∃ st2, paging_loop refstr frameCount swap_heuristic m st = some st2 ∧
        P st2 ∧ st2.i = min (st.i + m) refstr.length := by
  intro m
  induction m with
  | zero =>
    intro st h
    exact ⟨st, rfl, h, by have := hle st h; simp; omega⟩
  | succ m ih =>
    intro st h
    by_cases hi : st.i < refstr.length
    · obtain ⟨st1, hstep1, hgood1, hi1⟩ := hstep st h hi
      obtain ⟨st2, hloop, hgood2, hi2⟩ := ih st1 hgood1
      refine ⟨st2, ?_, hgood2, by rw [hi2, hi1]; congr 1; omega⟩
      rw [paging_loop, if_pos ((char_at_ne_zero_iff hv _).mpr hi), hstep1]
      exact hloop
    · refine ⟨st, ?_, h, by have := hle st h; omega⟩
      rw [paging_loop, if_neg (fun e => hi ((char_at_ne_zero_iff hv _).mp e))]

/-- The main loop from a state that satisfies the invariant, with a heuristic
that returns a slot on a full table. -/
theorem loop_good {refstr : List Int} (hv : valid_string refstr) {n : Nat}
    {swap_heuristic : Heuristic} (hs : swap_ok refstr n swap_heuristic) :
    ∀ (m : Nat) (st : State), GoodState refstr n st →
      ∃ st2, paging_loop refstr (n : Int) swap_heuristic m st = some st2 ∧
        GoodState refstr n st2 ∧ st2.i = min (st.i + m) refstr.length :=
  loop_induct hv (n : Int) swap_heuristic (GoodState refstr n) (fun _ h => h.i_le)
    (fun _ h hi => step_good hv hs h hi)

theorem optimal_swap_ok {refstr : List Int} (hv : valid_string refstr) {n : Nat}
    (hn : 1 ≤ n) : swap_ok refstr n optimal_swap := by
  intro frames i hfull hlen _
  obtain ⟨k, hk, hswap, _, _⟩ := optimal_swap_spec hv hfull (by omega) i
  rw [hlen] at hswap
  exact ⟨k, by omega, hswap⟩

theorem lru_swap_ok {refstr : List Int} (hv : valid_string refstr) {n : Nat}
    (hn : 1 ≤ n) : swap_ok refstr n lru_swap := by
  intro frames i hfull hlen hi
  obtain ⟨k, hk, hswap, _, _⟩ := lru_swap_spec hv hfull (by omega) (Nat.le_of_lt hi)
  rw [hlen] at hswap
  exact ⟨k, by omega, hswap⟩

/-- The two heuristics of the program return a slot on a full table. -/
theorem policy_ok {refstr : List Int} (hv : valid_string refstr) {n : Nat} (hn : 1 ≤ n)
    {swap_heuristic : Heuristic}
    (hs : swap_heuristic = optimal_swap ∨ swap_heuristic = lru_swap) :
    swap_ok refstr n swap_heuristic := by
  rcases hs with e | e <;> subst e
  · exact optimal_swap_ok hv hn
  · exact lru_swap_ok hv hn

/-- With one of the two heuristics and at least one frame, the state after `m`
iterations of the main loop exists and satisfies the invariant. -/
theorem run_good {refstr : List Int} (hv : valid_string refstr) {frameCount : Int}
    (hf : 1 ≤ frameCount) {swap_heuristic : Heuristic}
    (hs : swap_heuristic = optimal_swap ∨ swap_heuristic = lru_swap) (m : Nat) :
    ∃ st, paging_run refstr frameCount swap_heuristic m = some st ∧
      GoodState refstr frameCount.toNat st ∧ st.i = min m refstr.length := by
  have e : ((frameCount.toNat : Nat) : Int) = frameCount := Int.toNat_of_nonneg (by omega)
  have hn : 1 ≤ frameCount.toNat := by omega
  obtain ⟨st, hloop, hgood, hi⟩ := loop_good hv (policy_ok hv hn hs) m _
    (good_init refstr hv frameCount.toNat)
  rw [e] at hloop
  refine ⟨st, hloop, hgood, ?_⟩
  rw [hi, e]; simp [paging_init]

/-! ## Proofs: as many frames as distinct pages -/

theorem take_succ_toFinset {refstr : List Int} {i : Nat} (hi : i < refstr.length) :
    ((pages refstr).take (i + 1)).toFinset
      = insert (_atoi refstr[i]) ((pages refstr).take i).toFinset := by
  have hp : i < (pages refstr).length := by simpa [pages] using hi
  rw [List.take_succ, List.getElem?_eq_getElem hp, pages_getElem hi hp]
  ext x; simp [or_comm]

theorem take_toFinset_subset (l : List Int) (i : Nat) : (l.take i).toFinset ⊆ l.toFinset := by
  intro x hx
  exact List.mem_toFinset.mpr (List.mem_of_mem_take (List.mem_toFinset.mp hx))

/-- With at least as many frames as distinct pages, every iteration keeps all the
pages met so far in the frames, and counts a fault for each of them. -/
theorem step_enough {refstr : List Int} (hv : valid_string refstr) {n : Nat}
    (hn : distinct_pages refstr ≤ n) (swap_heuristic : Heuristic) (st : State)
    (h : GoodState refstr n st ∧
      resident st.frames = ((pages refstr).take st.i).toFinset ∧
      st.fault_count = ((resident st.frames).card : Int))
    (hi : st.i < refstr.length) :
    ∃ st2, paging_step refstr (n : Int) swap_heuristic st = some st2 ∧
      (GoodState refstr n st2 ∧
        resident st2.frames = ((pages refstr).take st2.i).toFinset ∧
        st2.fault_count = ((resident st2.frames).card : Int)) ∧
      st2.i = st.i + 1 := by
  obtain ⟨hgood, hres, hfc⟩ := h
  have hhl : st.i < st.hits.length := by rw [good_hits_length hgood]; exact hi
  obtain ⟨h1, h5⟩ := valid_getElem hv hi
  have hp0 : _atoi refstr[st.i] ≠ 0 := by omega
  rw [← char_at_lt hi] at h1 h5 hp0
  by_cases hmem : _atoi (char_at refstr st.i) ∈ st.frames
  · refine ⟨_, step_hit refstr n swap_heuristic hhl hmem, ⟨good_hit hgood hi, ?_, hfc⟩, rfl⟩
    have : _atoi (char_at refstr st.i) ∈ resident st.frames := mem_resident.mpr ⟨hmem, hp0⟩
    show resident st.frames = ((pages refstr).take (st.i + 1)).toFinset
    rw [take_succ_toFinset hi, ← hres, ← char_at_lt hi, Finset.insert_eq_of_mem this]
  · have hnr : _atoi (char_at refstr st.i) ∉ resident st.frames :=
      fun e => hmem (mem_resident.mp e).1
    have h0 : (0 : Int) ∈ st.frames := by
      by_contra h0
      have hcard := card_resident_full (full_of_inv hgood.inv h0)
      have hsub : insert (_atoi (char_at refstr st.i)) (resident st.frames)
          ⊆ (pages refstr).toFinset := by
        rw [hres, char_at_lt hi, ← take_succ_toFinset hi]
        exact take_toFinset_subset _ _
      have hle := Finset.card_le_card hsub
      rw [Finset.card_insert_of_not_mem hnr, hcard, hgood.frames_len,
        List.card_toFinset] at hle
      unfold distinct_pages at hn
      omega
    obtain ⟨k, hk, hz, _, hstep⟩ := step_open refstr n swap_heuristic hhl hmem h0
    have hres2 : resident (st.frames.set k (_atoi (char_at refstr st.i)))
        = insert (_atoi (char_at refstr st.i)) (resident st.frames) :=
      resident_set_open hk hz hp0
    refine ⟨_, hstep, ⟨good_miss hgood hi hmem h1 h5 hk, ?_, ?_⟩, rfl⟩
    · show resident (st.frames.set k (_atoi (char_at refstr st.i)))
        = ((pages refstr).take (st.i + 1)).toFinset
      rw [hres2, take_succ_toFinset hi, hres, char_at_lt hi]
    · show st.fault_count + 1
        = ((resident (st.frames.set k (_atoi (char_at refstr st.i)))).card : Int)
      rw [hres2, Finset.card_insert_of_not_mem hnr, hfc]
      push_cast; rfl

/-- The fault count of `paging_test` with at least as many frames as distinct
pages, whatever the heuristic. -/
theorem enough_frames {refstr : List Int} (hv : valid_string refstr) {n : Nat}
    (hn : distinct_pages refstr ≤ n) (swap_heuristic : Heuristic) :
    ∃ hits, paging_test refstr (n : Int) swap_heuristic
      = some ((distinct_pages refstr : Int), hits) := by
  obtain ⟨st, hloop, ⟨hgood, hres, hfc⟩, hi⟩ := loop_induct hv (n : Int) swap_heuristic
    (fun st => GoodState refstr n st ∧
      resident st.frames = ((pages refstr).take st.i).toFinset ∧
      st.fault_count = ((resident st.frames).card : Int))
    (fun _ h => h.1.i_le) (step_enough hv hn swap_heuristic) refstr.length
    (paging_init refstr (n : Int))
    ⟨good_init refstr hv n, by simp [paging_init, resident_replicate],
      by simp [paging_init, resident_replicate]⟩
  have hi2 : st.i = refstr.length := by simpa [paging_init] using hi
  refine ⟨st.hits, ?_⟩
  have hfc2 : st.fault_count = (distinct_pages refstr : Int) := by
    rw [hfc, hres, hi2, ← pages_length refstr, List.take_length, List.card_toFinset]
    rfl
  simp [paging_test, paging_run, hloop, hfc2]

/-! ## Proofs: Belady's algorithm is optimal -/

theorem cnt_mono {A B : Finset Int} (h : A ⊆ B) (l : List Int) : cnt A l ≤ cnt B l :=
  Finset.card_le_card (Finset.filter_subset_filter _ h)

theorem cnt_le_card (Z : Finset Int) (l : List Int) : cnt Z l ≤ Z.card :=
  Finset.card_filter_le _ _

theorem cnt_full {Z : Finset Int} {l : List Int} (h : ∀ y ∈ Z, y ∈ l) : cnt Z l = Z.card := by
  unfold cnt
  rw [Finset.filter_true_of_mem h]

theorem cnt_lt {Z : Finset Int} {l : List Int} {r : Int} (hr : r ∈ Z) (hl : r ∉ l) :
    cnt Z l + 1 ≤ Z.card := by
  have hsub : Z.filter (· ∈ l) ⊆ Z.erase r := by
    intro x hx
    obtain ⟨hxZ, hxl⟩ := Finset.mem_filter.mp hx
    exact Finset.mem_erase.mpr ⟨fun e => hl (e ▸ hxl), hxZ⟩
  have := Finset.card_le_card hsub
  rw [Finset.card_erase_of_mem hr] at this
  have hpos : 0 < Z.card := Finset.card_pos.mpr ⟨r, hr⟩
  unfold cnt
  omega

theorem cnt_cons_new {Z : Finset Int} {l : List Int} {r : Int} (hr : r ∈ Z) (hl : r ∉ l) :
    cnt Z (r :: l) = cnt Z l + 1 := by
  unfold cnt
  have : Z.filter (· ∈ r :: l) = insert r (Z.filter (· ∈ l)) := by
    ext x
    simp only [Finset.mem_filter, List.mem_cons, Finset.mem_insert]
    constructor
    · rintro ⟨hx, e | e⟩
      · exact Or.inl e
      · exact Or.inr ⟨hx, e⟩
    · rintro (e | ⟨hx, e⟩)
      · exact ⟨e ▸ hr, Or.inl e⟩
      · exact ⟨hx, Or.inr e⟩
  rw [this, Finset.card_insert_of_not_mem]
  intro h
  exact hl (Finset.mem_filter.mp h).2

theorem cnt_cons_old {Z : Finset Int} {l : List Int} {r : Int} (h : r ∉ Z ∨ r ∈ l) :
    cnt Z (r :: l) = cnt Z l := by
  unfold cnt
  congr 1
  ext x
  simp only [Finset.mem_filter, List.mem_cons]
  constructor
  · rintro ⟨hx, e | e⟩
    · rcases h with h | h
      · exact absurd (e ▸ hx) h
      · exact ⟨hx, e ▸ h⟩
    · exact ⟨hx, e⟩
  · rintro ⟨hx, e⟩
    exact ⟨hx, Or.inr e⟩

theorem cnt_insert_in {Z : Finset Int} {l : List Int} {r : Int} (hr : r ∉ Z) (hl : r ∈ l) :
    cnt (insert r Z) l = cnt Z l + 1 := by
  unfold cnt
  rw [Finset.filter_insert, if_pos hl, Finset.card_insert_of_not_mem]
  intro h
  exact hr (Finset.mem_filter.mp h).1

theorem cnt_insert_out (Z : Finset Int) {l : List Int} {r : Int} (hl : r ∉ l) :
    cnt (insert r Z) l = cnt Z l := by
  unfold cnt
  rw [Finset.filter_insert, if_neg hl]

theorem cnt_erase_in {Z : Finset Int} {l : List Int} {v : Int} (hv : v ∈ Z) (hl : v ∈ l) :
    cnt (Z.erase v) l + 1 = cnt Z l := by
  unfold cnt
  have hmem : v ∈ Z.filter (· ∈ l) := Finset.mem_filter.mpr ⟨hv, hl⟩
  have hpos := Finset.card_pos.mpr ⟨v, hmem⟩
  rw [Finset.filter_erase, Finset.card_erase_of_mem hmem]
  omega

theorem cnt_erase_out (Z : Finset Int) {l : List Int} {v : Int} (hl : v ∉ l) :
    cnt (Z.erase v) l = cnt Z l := by
  unfold cnt
  rw [Finset.filter_erase, Finset.erase_eq_of_not_mem]
  intro h
  exact hl (Finset.mem_filter.mp h).2

/-- The resident pages after an eviction by Belady's rule, counted against the
first pages of the future: either the victim is not among these pages, or all the
pages that were resident are. -/
theorem cnt_after_evict {X : Finset Int} {w : List Int} {v r : Int} (hv : v ∈ X)
    (hr : r ∉ X) (hfar : farthest X w v) (m : Nat) :
    (r ∈ w.take m → cnt X (w.take m) + 1 = cnt (insert r (X.erase v)) (w.take m) ∨
      cnt (insert r (X.erase v)) (w.take m) = X.card) ∧
    (r ∉ w.take m → cnt X (w.take m) = cnt (insert r (X.erase v)) (w.take m) ∨
      cnt (insert r (X.erase v)) (w.take m) + 1 = X.card) := by
  have hr2 : r ∉ X.erase v := fun h => hr (Finset.mem_of_mem_erase h)
  constructor
  · intro hrT
    rw [cnt_insert_in hr2 hrT]
    by_cases hvT : v ∈ w.take m
    · right
      rw [← cnt_full (hfar m hvT)]
      exact cnt_erase_in hv hvT
    · left
      rw [cnt_erase_out X hvT]
  · intro hrT
    rw [cnt_insert_out _ hrT]
    by_cases hvT : v ∈ w.take m
    · right
      rw [← cnt_full (hfar m hvT)]
      exact cnt_erase_in hv hvT
    · left
      rw [cnt_erase_out X hvT]

theorem cnt_sched_miss {Y Y2 : Finset Int} {r : Int} (hr : r ∉ Y) (hsub : Y2 ⊆ insert r Y)
    (l : List Int) :
    (r ∈ l → cnt Y2 l ≤ cnt Y l + 1) ∧ (r ∉ l → cnt Y2 l ≤ cnt Y l) := by
  constructor
  · intro hl
    rw [← cnt_insert_in hr hl]
    exact cnt_mono hsub l
  · intro hl
    rw [← cnt_insert_out Y hl]
    exact cnt_mono hsub l

/-- Belady's theorem, with a potential: a run of the engine that always evicts a
page needed farthest in the future has no more faults than any demand-paging
schedule with the same number of frames, up to the number `d` of pages by which
the schedule is ahead on some initial part of the future. -/
theorem belady (k : Nat) : ∀ (w : List Int) (hist : List Int) (X Y : Finset Int)
    (cO cA d : Nat), Run k opt_rule hist X w cO → Sched k Y w cA →
    X.card ≤ k → Y.card ≤ k →
    (∀ m : Nat, cnt Y (w.take m) ≤ cnt X (w.take m) + d) → cO ≤ cA + d := by
  intro w
  induction w with
  | nil =>
    intro hist X Y cO cA d hO _ _ _ _
    cases hO
    omega
  | cons r w ih =>
    intro hist X Y cO cA d hO hA hX hY hdom
    have hdom1 : ∀ m : Nat, cnt Y (r :: w.take m) ≤ cnt X (r :: w.take m) + d := by
      intro m
      have := hdom (m + 1)
      rwa [List.take_succ_cons] at this
    cases hO with
    | hit hrX hO2 =>
      cases hA with
      | hit hrY hA2 =>
        refine ih _ X Y _ _ d hO2 hA2 hX hY (fun m => ?_)
        have := hdom1 m
        by_cases hrT : r ∈ w.take m
        · rwa [cnt_cons_old (Or.inr hrT), cnt_cons_old (Or.inr hrT)] at this
        · rw [cnt_cons_new hrY hrT, cnt_cons_new hrX hrT] at this
          omega
      | miss hrY hrY2 hsub hcard hA2 =>
        have := ih _ X _ _ _ (d + 1) hO2 hA2 hX hcard (fun m => by
          have h1 := hdom1 m
          have h2 := cnt_sched_miss hrY hsub (w.take m)
          rw [cnt_cons_old (Or.inl hrY)] at h1
          by_cases hrT : r ∈ w.take m
          · rw [cnt_cons_old (Or.inr hrT)] at h1
            have := h2.1 hrT
            omega
          · rw [cnt_cons_new hrX hrT] at h1
            have := h2.2 hrT
            omega)
        omega
    | load hrX hlt hO2 =>
      have hX2 : (insert r X).card ≤ k := by
        rw [Finset.card_insert_of_not_mem hrX]; omega
      cases hA with
      | hit hrY hA2 =>
        have hd : 1 ≤ d := by
          have := hdom1 0
          rw [List.take_zero, cnt_cons_new hrY (List.not_mem_nil _),
            cnt_cons_old (Or.inl hrX)] at this
          have h0 : cnt X [] = 0 := by simp [cnt]
          omega
        have := ih _ (insert r X) Y _ _ (d - 1) hO2 hA2 hX2 hY (fun m => by
          have h1 := hdom1 m
          rw [cnt_cons_old (Or.inl hrX)] at h1
          by_cases hrT : r ∈ w.take m
          · rw [cnt_cons_old (Or.inr hrT)] at h1
            rw [cnt_insert_in hrX hrT]
            omega
          · rw [cnt_cons_new hrY hrT] at h1
            rw [cnt_insert_out X hrT]
            omega)
        omega
      | miss hrY hrY2 hsub hcard hA2 =>
        have := ih _ (insert r X) _ _ _ d hO2 hA2 hX2 hcard (fun m => by
          have h1 := hdom1 m
          have h2 := cnt_sched_miss hrY hsub (w.take m)
          rw [cnt_cons_old (Or.inl hrX), cnt_cons_old (Or.inl hrY)] at h1
          by_cases hrT : r ∈ w.take m
          · rw [cnt_insert_in hrX hrT]
            have := h2.1 hrT
            omega
          · rw [cnt_insert_out X hrT]
            have := h2.2 hrT
            omega)
        omega
    | @evict _ _ _ _ _ v hrX hfull hvX hfar hO2 =>
      have hX2 : (insert r (X.erase v)).card ≤ k := by
        rw [Finset.card_insert_of_not_mem (fun h => hrX (Finset.mem_of_mem_erase h)),
          Finset.card_erase_of_mem hvX]
        have : 0 < X.card := Finset.card_pos.mpr ⟨_, hvX⟩
        omega
      cases hA with
      | hit hrY hA2 =>
        have hd : 1 ≤ d := by
          have := hdom1 0
          rw [List.take_zero, cnt_cons_new hrY (List.not_mem_nil _),
            cnt_cons_old (Or.inl hrX)] at this
          have h0 : cnt X [] = 0 := by simp [cnt]
          omega
        have := ih _ (insert r (X.erase v)) Y _ _ (d - 1) hO2 hA2 hX2 hY (fun m => by
          have h1 := hdom1 m
          have h3 := cnt_after_evict hvX hrX hfar m
          have h4 := cnt_le_card Y (w.take m)
          rw [cnt_cons_old (Or.inl hrX)] at h1
          by_cases hrT : r ∈ w.take m
          · rw [cnt_cons_old (Or.inr hrT)] at h1
            have := h3.1 hrT
            omega
          · rw [cnt_cons_new hrY hrT] at h1
            have := h3.2 hrT
            have := cnt_lt hrY hrT
            omega)
        omega
      | miss hrY hrY2 hsub hcard hA2 =>
        have := ih _ (insert r (X.erase v)) _ _ _ d hO2 hA2 hX2 hcard (fun m => by
          have h1 := hdom1 m
          have h2 := cnt_sched_miss hrY hsub (w.take m)
          have h3 := cnt_after_evict hvX hrX hfar m
          rw [cnt_cons_old (Or.inl hrX), cnt_cons_old (Or.inl hrY)] at h1
          by_cases hrT : r ∈ w.take m
          · have := h2.1 hrT
            have := h3.1 hrT
            have := cnt_le_card _ (w.take m) |>.trans hcard
            omega
          · have := h2.2 hrT
            have := h3.2 hrT
            have := (cnt_lt hrY2 hrT).trans hcard
            omega)
        omega

/-- A run of the engine with `k` frames is a demand-paging schedule with `k2 ≥ k`
frames, whatever its victims. -/
theorem run_sched {k k2 : Nat} (hk : k ≤ k2)
    {V : List Int → Finset Int → List Int → Int → Prop} {hist : List Int}
    {X : Finset Int} {w : List Int} {c : Nat} (h : Run k V hist X w c) :
    X.card ≤ k → Sched k2 X w c := by
  induction h with
  | done hist X => intro _; exact Sched.done X
  | hit hr _ ih => intro hX; exact Sched.hit hr (ih hX)
  | @load hist X r w c hr hlt _ ih =>
    intro _
    have hc : (insert r X).card ≤ k := by
      rw [Finset.card_insert_of_not_mem hr]; omega
    exact Sched.miss hr (Finset.mem_insert_self _ _) (Finset.Subset.refl _)
      (hc.trans hk) (ih hc)
  | @evict hist X r w c v hr hfull hv _ _ ih =>
    intro _
    have hc : (insert r (X.erase v)).card ≤ k := by
      rw [Finset.card_insert_of_not_mem (fun h => hr (Finset.mem_of_mem_erase h)),
        Finset.card_erase_of_mem hv]
      have : 0 < X.card := Finset.card_pos.mpr ⟨_, hv⟩
      omega
    exact Sched.miss hr (Finset.mem_insert_self _ _)
      (Finset.insert_subset_insert _ (Finset.erase_subset _ _)) (hc.trans hk) (ih hc)

/-! ## Proofs: LRU and the LRU stack -/

theorem recency_nodup : ∀ hist : List Int, (recency hist).Nodup
  | [] => List.nodup_nil
  | p :: hist => by
    rw [recency, List.nodup_cons]
    exact ⟨fun h => ((recency_nodup hist).mem_erase_iff.mp h).1 rfl,
      (recency_nodup hist).erase p⟩

/-- The scan leaves flagged the pages of `F` other than the `pc` most recently
referenced ones. -/
theorem scanF_recency : ∀ (w : List Int) (pc : Nat) (F : Finset Int),
    scanF w pc F
      = F \ (((recency w).filter (fun x => decide (x ∈ F))).take pc).toFinset := by
  intro w
  induction w with
  | nil => intro pc F; simp [scanF, recency]
  | cons p w ih =>
    intro pc F
    unfold scanF
    by_cases h0 : pc = 0
    · simp [h0]
    · obtain ⟨pc2, rfl⟩ := Nat.exists_eq_succ_of_ne_zero h0
      rw [if_neg h0]
      have hnd := recency_nodup w
      by_cases hp : p ∈ F
      · rw [if_pos hp, ih]
        have e1 : (recency (p :: w)).filter (fun x => decide (x ∈ F))
            = p :: (recency w).filter (fun x => decide (x ∈ F.erase p)) := by
          rw [recency, List.filter_cons_of_pos (by simpa using hp), hnd.erase_eq_filter,
            List.filter_filter]
          congr 1
          apply List.filter_congr
          intro x _
          by_cases hx : x ∈ F <;> by_cases hxp : x = p <;> simp [hx, hxp]
        rw [e1, Nat.succ_sub_one, List.take_succ_cons, List.toFinset_cons]
        ext x
        simp only [Finset.mem_sdiff, Finset.mem_erase, Finset.mem_insert]
        tauto
      · rw [if_neg hp, ih]
        have e1 : (recency (p :: w)).filter (fun x => decide (x ∈ F))
            = (recency w).filter (fun x => decide (x ∈ F)) := by
          rw [recency, List.filter_cons_of_neg (by simpa using hp), hnd.erase_eq_filter,
            List.filter_filter]
          apply List.filter_congr
          intro x _
          by_cases hx : x ∈ F
          · have : x ≠ p := fun e => hp (e ▸ hx)
            simp [hx, this]
          · simp [hx]
        rw [e1]

theorem filter_mem_take {s : List Int} (hs : s.Nodup) (k : Nat) :
    s.filter (fun x => decide (x ∈ (s.take k).toFinset)) = s.take k := by
  conv_rhs => rw [hs.take_eq_filter_mem]
  apply List.filter_congr
  intro x _
  simp

theorem card_take_toFinset {s : List Int} (hs : s.Nodup) (k : Nat) :
    (s.take k).toFinset.card = min k s.length := by
  rw [List.toFinset_card_of_nodup (hs.sublist (List.take_sublist _ _)), List.length_take]

theorem take_erase_of_not_mem {r : Int} : ∀ (s : List Int) (j : Nat), r ∉ s.take j →
    (s.erase r).take j = s.take j := by
  intro s
  induction s with
  | nil => intro j _; simp
  | cons x s ih =>
    intro j h
    cases j with
    | zero => simp
    | succ j =>
      rw [List.take_succ_cons] at h
      have hx : x ≠ r := fun e => h (e ▸ List.mem_cons_self _ _)
      have hr : r ∉ s.take j := fun e => h (List.mem_cons_of_mem _ e)
      rw [List.erase_cons_tail (by simpa using hx), List.take_succ_cons, List.take_succ_cons,
        ih j hr]

/-- A hit moves the page to the top of the LRU stack, which does not change the
set of the first `k` pages. -/
theorem take_move_front {r : Int} : ∀ (s : List Int) (k : Nat), r ∈ s.take k →
    (List.take k (r :: s.erase r)).toFinset = (s.take k).toFinset := by
  intro s
  induction s with
  | nil => intro k h; simp at h
  | cons x s ih =>
    intro k h
    cases k with
    | zero => simp at h
    | succ k =>
      by_cases hx : x = r
      · subst hx
        simp
      · rw [List.take_succ_cons] at h
        have hr : r ∈ s.take k := by
          rcases List.mem_cons.mp h with e | e
          · exact absurd e.symm hx
          · exact e
        have hk : k ≠ 0 := fun e => by subst e; simp at hr
        obtain ⟨j, rfl⟩ := Nat.exists_eq_succ_of_ne_zero hk
        have := ih (j + 1) hr
        rw [List.take_succ_cons] at this
        rw [List.erase_cons_tail (by simpa using hx)]
        simp only [List.take_succ_cons, List.toFinset_cons] at this ⊢
        rw [Finset.Insert.comm, this]

theorem mem_take_succ {p : Int} {s : List Int} {k : Nat} (h : p ∈ s.take k) :
    p ∈ s.take (k + 1) :=
  (List.take_sublist_take_left s (Nat.le_succ k)).subset h

/-- LRU has the inclusion property, so that one more frame never adds a fault. -/
theorem lru_count_mono (k : Nat) : ∀ (w s : List Int),
    lru_count (k + 1) s w ≤ lru_count k s w := by
  intro w
  induction w with
  | nil => intro s; simp [lru_count]
  | cons p w ih =>
    intro s
    simp only [lru_count]
    have := ih (p :: s.erase p)
    by_cases h : p ∈ s.take k
    · rw [if_pos h, if_pos (mem_take_succ h)]
      omega
    · rw [if_neg h]
      split_ifs <;> omega

/-- A run of the engine whose victims are those of `lru_swap`, started with the
`k` most recently referenced pages in the frames (all the pages referenced, when
they are fewer), faults exactly when the page is not among the first `k` of the
LRU stack. -/
theorem lru_run {k : Nat} (hk : 1 ≤ k) {hist : List Int} {X : Finset Int}
    {w : List Int} {c : Nat} (h : Run k (lru_rule k) hist X w c) :
    X = ((recency hist).take k).toFinset → c = lru_count k (recency hist) w := by
  induction h with
  | done hist X => intro _; rfl
  | @hit hist X r w c hr _ ih =>
    intro hX
    have hr2 : r ∈ (recency hist).take k := by
      rw [hX] at hr; exact List.mem_toFinset.mp hr
    rw [lru_count, if_pos hr2, Nat.zero_add]
    apply ih
    rw [recency, take_move_front _ _ hr2]
    exact hX
  | @load hist X r w c hr hlt _ ih =>
    intro hX
    have hnd := recency_nodup hist
    have hr2 : r ∉ (recency hist).take k := by
      rw [hX] at hr; exact fun e => hr (List.mem_toFinset.mpr e)
    have hlen : (recency hist).length < k := by
      rw [hX, card_take_toFinset hnd] at hlt
      omega
    have htake : (recency hist).take k = recency hist := List.take_of_length_le (by omega)
    rw [htake] at hr2
    rw [lru_count, if_neg (by rwa [htake]), Nat.add_comm]
    congr 1
    apply ih
    rw [recency, List.erase_of_not_mem hr2, List.take_of_length_le (by simp; omega),
      List.toFinset_cons, hX, htake]
  | @evict hist X r w c v hr hfull hv hrule _ ih =>
    intro hX
    have hnd := recency_nodup hist
    have hr2 : r ∉ (recency hist).take k := by
      rw [hX] at hr; exact fun e => hr (List.mem_toFinset.mpr e)
    have hlen : k ≤ (recency hist).length := by
      rw [hX, card_take_toFinset hnd] at hfull
      omega
    obtain ⟨j, rfl⟩ : ∃ j, k = j + 1 := ⟨k - 1, by omega⟩
    have hr3 : r ∉ (recency hist).take j := fun e => hr2 (mem_take_succ e)
    -- the victim is not among the `j` most recently referenced pages
    have hv2 : v ∉ ((recency hist).take j).toFinset := by
      have := hrule
      unfold lru_rule at this
      rw [scanF_recency, hX, filter_mem_take hnd, List.take_take] at this
      have e : min (j + 1 - 1) (j + 1) = j := by omega
      rw [e] at this
      exact (Finset.mem_sdiff.mp this).2
    have hsub : ((recency hist).take j).toFinset ⊆ X.erase v := by
      intro x hx
      refine Finset.mem_erase.mpr ⟨fun e => hv2 (e ▸ hx), ?_⟩
      rw [hX]
      exact List.mem_toFinset.mpr (mem_take_succ (List.mem_toFinset.mp hx))
    have heq : ((recency hist).take j).toFinset = X.erase v := by
      apply Finset.eq_of_subset_of_card_le hsub
      rw [Finset.card_erase_of_mem hv, hfull, card_take_toFinset hnd]
      omega
    rw [lru_count, if_neg hr2, Nat.add_comm]
    congr 1
    apply ih
    rw [recency, List.take_succ_cons, List.toFinset_cons, take_erase_of_not_mem _ _ hr3, heq]

/-! ## Proofs: the runs of `paging_test` as runs on the resident sets -/

/-- The main loop, run to the end of the string with a heuristic that follows the
victim rule `V`, is a run of the engine on the resident sets, with as many faults
as the loop adds to `fault_count`. -/
theorem code_run {refstr : List Int} (hv : valid_string refstr) {n : Nat}
    {swap_heuristic : Heuristic} {V : List Int → Finset Int → List Int → Int → Prop}
    (hs : swap_rule refstr n swap_heuristic V) :
    ∀ (m : Nat) (st : State), GoodState refstr n st → refstr.length ≤ st.i + m →
      ∃ (st2 : State) (c : Nat),
        paging_loop refstr (n : Int) swap_heuristic m st = some st2 ∧
        st2.fault_count = st.fault_count + (c : Int) ∧
        Run n V ((pages refstr).take st.i).reverse (resident st.frames)
          ((pages refstr).drop st.i) c := by
  intro m
  induction m with
  | zero =>
    intro st h hm
    have hd : (pages refstr).drop st.i = [] := by
      apply List.drop_eq_nil_of_le; rw [pages_length]; omega
    refine ⟨st, 0, rfl, by simp, ?_⟩
    rw [hd]; exact Run.done _ _
  | succ m ih =>
    intro st h hm
    by_cases hi : st.i < refstr.length
    · have hhl : st.i < st.hits.length := by rw [good_hits_length h]; exact hi
      obtain ⟨h1, h5⟩ := valid_getElem hv hi
      have hp0 : _atoi refstr[st.i] ≠ 0 := by omega
      rw [← char_at_lt hi] at h1 h5 hp0
      have hloop : ∀ st1, paging_step refstr (n : Int) swap_heuristic st = some st1 →
          paging_loop refstr (n : Int) swap_heuristic (m + 1) st
            = paging_loop refstr (n : Int) swap_heuristic m st1 := by
        intro st1 hstep
        rw [paging_loop, if_pos ((char_at_ne_zero_iff hv _).mpr hi), hstep]
        rfl
      rw [pages_drop hi, ← char_at_lt hi]
      by_cases hmem : _atoi (char_at refstr st.i) ∈ st.frames
      · have hstep := step_hit refstr n swap_heuristic hhl hmem
        obtain ⟨st2, c, hl2, hfc, hrun⟩ := ih _ (good_hit h hi) (by simp; omega)
        refine ⟨st2, c, by rw [hloop _ hstep]; exact hl2, hfc, ?_⟩
        apply Run.hit (mem_resident.mpr ⟨hmem, hp0⟩)
        simpa [pages_take_reverse hi, char_at_lt hi] using hrun
      · have hnr : _atoi (char_at refstr st.i) ∉ resident st.frames :=
          fun e => hmem (mem_resident.mp e).1
        by_cases h0 : (0 : Int) ∈ st.frames
        · obtain ⟨k, hk, hz, _, hstep⟩ := step_open refstr n swap_heuristic hhl hmem h0
          obtain ⟨st2, c, hl2, hfc, hrun⟩ :=
            ih _ (good_miss h hi hmem h1 h5 hk) (by simp; omega)
          refine ⟨st2, c + 1, by rw [hloop _ hstep]; exact hl2,
            by rw [hfc]; push_cast; ring, ?_⟩
          apply Run.load hnr (by rw [← h.frames_len]; exact card_resident_lt h0)
          rw [← resident_set_open hk hz hp0]
          simpa [pages_take_reverse hi, char_at_lt hi] using hrun
        · have hfull := full_of_inv h.inv h0
          obtain ⟨k, hk, hswap, hV⟩ := hs st.frames st.i hfull h.frames_len hi
          have hstep := step_full refstr n swap_heuristic hhl hmem h0 hk hswap
          obtain ⟨st2, c, hl2, hfc, hrun⟩ :=
            ih _ (good_miss h hi hmem h1 h5 hk) (by simp; omega)
          refine ⟨st2, c + 1, by rw [hloop _ hstep]; exact hl2,
            by rw [hfc]; push_cast; ring, ?_⟩
          have hkr : st.frames[k] ∈ resident st.frames :=
            mem_resident.mpr ⟨List.getElem_mem _, fun e => h0 (e ▸ List.getElem_mem _)⟩
          apply Run.evict hnr (by rw [← h.frames_len]; exact card_resident_full hfull)
            hkr hV
          rw [← resident_set_full hfull hk hp0]
          simpa [pages_take_reverse hi, char_at_lt hi] using hrun
    · have hd : (pages refstr).drop st.i = [] := by
        apply List.drop_eq_nil_of_le; rw [pages_length]; omega
      refine ⟨st, 0, ?_, by simp, ?_⟩
      · rw [paging_loop, if_neg (fun e => hi ((char_at_ne_zero_iff hv _).mp e))]
      · rw [hd]; exact Run.done _ _

/-- The function `paging_test` with a heuristic that follows the victim rule `V`
returns, and its fault count is that of a run of the engine from the empty
resident set. -/
theorem test_run {refstr : List Int} (hv : valid_string refstr) {n : Nat}
    {swap_heuristic : Heuristic} {V : List Int → Finset Int → List Int → Int → Prop}
    (hs : swap_rule refstr n swap_heuristic V) :
    ∃ (c : Nat) (hits : List (Option Int)),
      paging_test refstr (n : Int) swap_heuristic = some ((c : Int), hits) ∧
      Run n V [] ∅ (pages refstr) c := by
  obtain ⟨st2, c, hloop, hfc, hrun⟩ := code_run hv hs refstr.length
    (paging_init refstr (n : Int)) (good_init refstr hv n) (by simp [paging_init])
  refine ⟨c, st2.hits, ?_, ?_⟩
  · have : st2.fault_count = (c : Int) := by simpa [paging_init] using hfc
    simp [paging_test, paging_run, hloop, this]
  · simpa [paging_init, resident_replicate] using hrun

theorem optimal_swap_rule {refstr : List Int} (hv : valid_string refstr) {n : Nat}
    (hn : 1 ≤ n) : swap_rule refstr n optimal_swap opt_rule := by
  intro frames i hfull hlen _
  obtain ⟨k, hk, hswap, hmem, _⟩ := optimal_swap_spec hv hfull (by omega) i
  rw [hlen] at hswap
  refine ⟨k, hk, hswap, ?_⟩
  have h0 : (0 : Int) ∉ frames := fun e => by
    have := (hfull.1 0 e).1
    omega
  unfold opt_rule
  rw [resident_full h0]
  intro m hm y hy
  refine scanF_far _ _ _ ?_ _ hmem m hm y hy
  rw [List.toFinset_card_of_nodup hfull.2]
  omega

theorem lru_swap_rule {refstr : List Int} (hv : valid_string refstr) {n : Nat}
    (hn : 1 ≤ n) : swap_rule refstr n lru_swap (lru_rule n) := by
  intro frames i hfull hlen hi
  obtain ⟨k, hk, hswap, hmem, _⟩ := lru_swap_spec hv hfull (by omega) (Nat.le_of_lt hi)
  rw [hlen] at hswap hmem
  refine ⟨k, hk, hswap, ?_⟩
  have h0 : (0 : Int) ∉ frames := fun e => by
    have := (hfull.1 0 e).1
    omega
  unfold lru_rule
  rw [resident_full h0]
  exact hmem

/-- The fault count of `paging_test` with `lru_swap` and `n` frames. -/
theorem lru_test {refstr : List Int} (hv : valid_string refstr) {n : Nat} (hn : 1 ≤ n) :
    ∃ hits, paging_test refstr (n : Int) lru_swap
      = some ((lru_count n [] (pages refstr) : Int), hits) := by
  obtain ⟨c, hits, htest, hrun⟩ := test_run hv (lru_swap_rule hv hn)
  have := lru_run hn hrun (by simp [recency])
  exact ⟨hits, by rw [htest, this]; rfl⟩

/-- The fault count of `paging_test` with `optimal_swap` and `n` frames is at
most the cost of any demand-paging schedule with `n` frames. -/
theorem optimal_test {refstr : List Int} (hv : valid_string refstr) {n : Nat}
    (hn : 1 ≤ n) :
    ∃ (c : Nat) (hits : List (Option Int)),
      paging_test refstr (n : Int) optimal_swap = some ((c : Int), hits) ∧
      Run n opt_rule [] ∅ (pages refstr) c ∧
      ∀ cA : Nat, Sched n ∅ (pages refstr) cA → c ≤ cA := by
  obtain ⟨c, hits, htest, hrun⟩ := test_run hv (optimal_swap_rule hv hn)
  refine ⟨c, hits, htest, hrun, fun cA hA => ?_⟩
  have := belady n (pages refstr) [] ∅ ∅ c cA 0 hrun hA (by simp) (by simp)
    (fun m => by simp [cnt])
  omega

/-! ## Proofs: no frame at all -/

theorem first_index_none (x : Int) : ∀ (l : List Int) (b : Nat), x ∉ l →
    first_index_from l b x = none := by
  intro l
  induction l with
  | nil => intro b _; rfl
  | cons y rest ih =>
    intro b h
    have hy : y ≠ x := fun e => h (e ▸ List.mem_cons_self _ _)
    rw [first_index_from, if_neg hy]
    exact ih _ (fun e => h (List.mem_cons_of_mem _ e))

/-- A page found among the first `m` pages of `l` has its first index below
`b + m`. -/
theorem first_index_of_mem_take (x : Int) : ∀ (l : List Int) (b m : Nat), x ∈ l.take m →
    ∃ i, first_index_from l b x = some i ∧ i < b + m := by
  intro l
  induction l with
  | nil => intro b m h; simp at h
  | cons y rest ih =>
    intro b m h
    cases m with
    | zero => simp at h
    | succ m =>
      rw [List.take_succ_cons] at h
      by_cases hy : y = x
      · exact ⟨b, by rw [first_index_from, if_pos hy], by omega⟩
      · have hr : x ∈ rest.take m := by
          rcases List.mem_cons.mp h with e | e
          · exact absurd e.symm hy
          · exact e
        obtain ⟨i, hi, hlt⟩ := ih (b + 1) m hr
        exact ⟨i, by rw [first_index_from, if_neg hy]; exact hi, by omega⟩

/-- The first index of a page is at least `b`, and the page is among the pages up
to that index. -/
theorem first_index_some (x : Int) : ∀ (l : List Int) (b i : Nat),
    first_index_from l b x = some i → b ≤ i ∧ x ∈ l.take (i - b + 1) := by
  intro l
  induction l with
  | nil => intro b i h; simp [first_index_from] at h
  | cons y rest ih =>
    intro b i h
    rw [first_index_from] at h
    split_ifs at h with hy
    · have e : b = i := by simpa using h
      subst e
      simp [hy]
    · obtain ⟨hle, hmem⟩ := ih (b + 1) i h
      refine ⟨by omega, ?_⟩
      have e : i - b + 1 = (i - (b + 1) + 1) + 1 := by omega
      rw [e, List.take_succ_cons]
      exact List.mem_cons_of_mem _ hmem

theorem mem_take_append_singleton {x y : Int} {l : List Int} {m : Nat}
    (h : x ∈ (l ++ [y]).take m) : x ∈ l.take m ∨ (l.length < m ∧ x = y) := by
  rw [List.take_append_eq_append_take] at h
  rcases List.mem_append.mp h with e | e
  · exact Or.inl e
  · right
    have hm : l.length < m := by
      by_contra hc
      have : m - l.length = 0 := by omega
      rw [this] at e
      simp at e
    refine ⟨hm, ?_⟩
    have := List.mem_of_mem_take e
    simpa using this

/-- The last index of a page lies within the indices of the list, and the page is
among the pages from that index on. -/
theorem last_index_some (x : Int) : ∀ (l : List Int) (b i : Nat),
    last_index_from l b x = some i →
    b ≤ i ∧ i < b + l.length ∧ x ∈ l.reverse.take (b + l.length - i) := by
  intro l
  induction l with
  | nil => intro b i h; simp [last_index_from] at h
  | cons y rest ih =>
    intro b i h
    rw [last_index_from] at h
    cases hrec : last_index_from rest (b + 1) x with
    | some i2 =>
      rw [hrec] at h
      have e : i2 = i := by simpa using h
      subst e
      obtain ⟨h1, h2, h3⟩ := ih (b + 1) i2 hrec
      refine ⟨by omega, by simp only [List.length_cons]; omega, ?_⟩
      rw [List.reverse_cons, List.take_append_eq_append_take]
      apply List.mem_append_left
      have e2 : b + (y :: rest).length - i2 = b + 1 + rest.length - i2 := by
        simp only [List.length_cons]; omega
      rw [e2]; exact h3
    | none =>
      rw [hrec] at h
      simp only at h
      split_ifs at h with hy
      have e : b = i := by simpa using h
      subst e
      refine ⟨le_refl _, by simp, ?_⟩
      have e2 : b + (y :: rest).length - b = (y :: rest).reverse.length := by simp
      rw [e2, List.take_length, List.mem_reverse, hy]
      exact List.mem_cons_self _ _

/-- A page found among the last `m` pages of `l` has its last index at least
`b + l.length - m`. -/
theorem last_index_of_mem_take (x : Int) : ∀ (l : List Int) (b m : Nat),
    x ∈ l.reverse.take m →
    ∃ i, last_index_from l b x = some i ∧ b + l.length ≤ i + m := by
  intro l
  induction l with
  | nil => intro b m h; simp at h
  | cons y rest ih =>
    intro b m h
    rw [List.reverse_cons] at h
    rcases mem_take_append_singleton h with e | ⟨hm, e⟩
    · obtain ⟨i, hi, hle⟩ := ih (b + 1) m e
      refine ⟨i, by rw [last_index_from, hi], ?_⟩
      simp only [List.length_cons]; omega
    · rw [List.length_reverse] at hm
      cases hrec : last_index_from rest (b + 1) x with
      | some i =>
        have := (last_index_some x rest (b + 1) i hrec).1
        refine ⟨i, by rw [last_index_from, hrec], ?_⟩
        simp only [List.length_cons]; omega
      | none =>
        refine ⟨b, by rw [last_index_from, hrec]; simp [e], ?_⟩
        simp only [List.length_cons]; omega

/-- A page that the rest of the string needs no sooner than the page `y` has its
next use no earlier than `y`. -/
theorem nextUse_le_of_far {s : List Int} {p : Nat} {v y : Int}
    (h : ∀ m : Nat, v ∈ (s.drop (p + 1)).take m → y ∈ (s.drop (p + 1)).take m) :
    nextUse s p y ≤ nextUse s p v := by
  unfold nextUse
  cases hv : first_index_from (s.drop (p + 1)) (p + 1) v with
  | none => exact le_top
  | some i =>
    obtain ⟨hle, hmem⟩ := first_index_some v _ _ _ hv
    obtain ⟨i2, hi2, hlt⟩ := first_index_of_mem_take y _ (p + 1) _ (h _ hmem)
    rw [hi2]
    have hle2 : i2 ≤ i := by omega
    exact WithTop.coe_le_coe.mpr hle2

/-- A page that was referenced no later than the page `y` before the position has
its last use no later than `y`. -/
theorem lastUse_le_of_far {s : List Int} {p : Nat} {v y : Int}
    (h : ∀ m : Nat, v ∈ (s.take p).reverse.take m → y ∈ (s.take p).reverse.take m) :
    lastUse s p v ≤ lastUse s p y := by
  unfold lastUse
  cases hv : last_index_from (s.take p) 0 v with
  | none => exact bot_le
  | some i =>
    obtain ⟨_, hlt, hmem⟩ := last_index_some v _ _ _ hv
    obtain ⟨i2, hi2, hle⟩ := last_index_of_mem_take y _ 0 _ (h _ hmem)
    rw [hi2]
    have hle2 : i ≤ i2 := by omega
    exact WithBot.coe_le_coe.mpr hle2

/-! ## Proofs: the victims of the two heuristics -/

/-- When at most `pc` of the flagged pages are met, the scan clears them all and
leaves flagged exactly the pages that are never met. -/
theorem scanF_of_cnt_le : ∀ (w : List Int) (pc : Nat) (F : Finset Int), cnt F w ≤ pc →
    scanF w pc F = F.filter (fun x => x ∉ w) := by
  intro w
  induction w with
  | nil => intro pc F _; simp [scanF]
  | cons p w ih =>
    intro pc F h
    unfold scanF
    by_cases h0 : pc = 0
    · rw [if_pos h0]
      subst h0
      have hempty : F.filter (· ∈ p :: w) = ∅ := Finset.card_eq_zero.mp (Nat.le_zero.mp h)
      ext x
      rw [Finset.mem_filter]
      constructor
      · intro hx
        refine ⟨hx, fun hw => ?_⟩
        have : x ∈ F.filter (· ∈ p :: w) := Finset.mem_filter.mpr ⟨hx, hw⟩
        rw [hempty] at this
        simp at this
      · exact fun hx => hx.1
    · rw [if_neg h0]
      by_cases hp : p ∈ F
      · rw [if_pos hp]
        have hc : cnt (F.erase p) w ≤ pc - 1 := by
          by_cases hpw : p ∈ w
          · rw [cnt_cons_old (Or.inr hpw)] at h
            have := cnt_erase_in hp hpw
            omega
          · rw [cnt_cons_new hp hpw] at h
            rw [cnt_erase_out F hpw]
            omega
        rw [ih _ _ hc]
        ext x
        simp only [Finset.mem_filter, Finset.mem_erase, List.mem_cons, not_or]
        tauto
      · rw [if_neg hp]
        rw [cnt_cons_old (Or.inl hp)] at h
        rw [ih _ _ h]
        ext x
        simp only [Finset.mem_filter, List.mem_cons, not_or]
        constructor
        · rintro ⟨hx, hw⟩
          exact ⟨hx, fun e => hp (e ▸ hx), hw⟩
        · rintro ⟨hx, _, hw⟩
          exact ⟨hx, hw⟩

theorem full_table_no_zero {frames : List Int} (h : full_table frames) : (0 : Int) ∉ frames := by
  intro e
  have := (h.1 0 e).1
  omega

/-- The victim of `optimal_swap` on a full frame table has the farthest next use. -/
theorem optimal_swap_next_use {refstr : List Int} (hv : valid_string refstr)
    {frames : List Int} (hfull : full_table frames) (hn : 1 ≤ frames.length) (p : Nat) :
    ∃ k : Nat, ∃ hk : k < frames.length,
      optimal_swap refstr frames (frames.length : Int) (p : Int) = some (k : Int) ∧
      ∀ (j : Nat) (hj : j < frames.length),
        nextUse (pages refstr) p frames[j] ≤ nextUse (pages refstr) p frames[k] := by
  obtain ⟨k, hk, hswap, hmem, _⟩ := optimal_swap_spec hv hfull hn p
  refine ⟨k, hk, hswap, fun j hj => nextUse_le_of_far (fun m hm => ?_)⟩
  refine scanF_far _ _ _ ?_ _ hmem m hm _ (List.mem_toFinset.mpr (List.getElem_mem hj))
  rw [List.toFinset_card_of_nodup hfull.2]
  omega

/-- The victim of `lru_swap` on a full frame table has the earliest last use. -/
theorem lru_swap_last_use {refstr : List Int} (hv : valid_string refstr)
    {frames : List Int} (hfull : full_table frames) (hn : 1 ≤ frames.length) {p : Nat}
    (hp : p ≤ refstr.length) :
    ∃ k : Nat, ∃ hk : k < frames.length,
      lru_swap refstr frames (frames.length : Int) (p : Int) = some (k : Int) ∧
      ∀ (j : Nat) (hj : j < frames.length),
        lastUse (pages refstr) p frames[k] ≤ lastUse (pages refstr) p frames[j] := by
  obtain ⟨k, hk, hswap, hmem, _⟩ := lru_swap_spec hv hfull hn hp
  refine ⟨k, hk, hswap, fun j hj => lastUse_le_of_far (fun m hm => ?_)⟩
  refine scanF_far _ _ _ ?_ _ hmem m hm _ (List.mem_toFinset.mpr (List.getElem_mem hj))
  rw [List.toFinset_card_of_nodup hfull.2]
  omega

/-- When some resident page does not occur after the position, `optimal_swap`
returns the slot of the smallest resident page that does not occur after it. -/
theorem optimal_swap_never_used {refstr : List Int} (hv : valid_string refstr)
    {frames : List Int} (hfull : full_table frames) (hn : 1 ≤ frames.length) (p : Nat)
    (hex : ∃ (j : Nat) (hj : j < frames.length), frames[j] ∉ (pages refstr).drop (p + 1)) :
    ∃ k : Nat, ∃ hk : k < frames.length,
      optimal_swap refstr frames (frames.length : Int) (p : Int) = some (k : Int) ∧
      frames[k] ∉ (pages refstr).drop (p + 1) ∧
      ∀ (j : Nat) (hj : j < frames.length),
        frames[j] ∉ (pages refstr).drop (p + 1) → frames[k] ≤ frames[j] := by
  obtain ⟨k, hk, hswap, hmem, hmin⟩ := optimal_swap_spec hv hfull hn p
  have hcnt : cnt frames.toFinset ((pages refstr).drop (p + 1)) ≤ frames.length - 1 := by
    obtain ⟨j, hj, hnot⟩ := hex
    have := cnt_lt (List.mem_toFinset.mpr (List.getElem_mem hj)) hnot
    rw [List.toFinset_card_of_nodup hfull.2] at this
    omega
  rw [scanF_of_cnt_le _ _ _ hcnt] at hmem hmin
  refine ⟨k, hk, hswap, (Finset.mem_filter.mp hmem).2, fun j hj hnot => ?_⟩
  exact hmin _ (Finset.mem_filter.mpr ⟨List.mem_toFinset.mpr (List.getElem_mem hj), hnot⟩)

/-! ## Proofs: the states of a run -/

/-- One more iteration allowed to the main loop is one more iteration at the end,
unless the loop has left. -/
theorem paging_loop_succ (refstr : List Int) (frameCount : Int)
    (swap_heuristic : Heuristic) : ∀ (m : Nat) (st : State),
    paging_loop refstr frameCount swap_heuristic (m + 1) st
      = (paging_loop refstr frameCount swap_heuristic m st).bind fun st2 =>
          if char_at refstr st2.i ≠ 0 then
            paging_step refstr frameCount swap_heuristic st2
          else some st2 := by
  intro m
  induction m with
  | zero =>
    intro st
    simp only [paging_loop, Option.some_bind]
    split_ifs
    · cases paging_step refstr frameCount swap_heuristic st <;> rfl
    · rfl
  | succ m ih =>
    intro st
    rw [paging_loop]
    conv_rhs => rw [paging_loop]
    split_ifs with hc
    · rw [Option.bind_assoc]
      congr 1
      funext st1
      exact ih st1
    · simp only [Option.some_bind, hc, if_false]

/-- The state after one more iteration, from a state of the run that is not at
the end of the string. -/
theorem run_succ {refstr : List Int} (hv : valid_string refstr) {frameCount : Int}
    {swap_heuristic : Heuristic} {m : Nat} {st : State}
    (hrun : paging_run refstr frameCount swap_heuristic m = some st)
    (hi : st.i < refstr.length) :
    paging_run refstr frameCount swap_heuristic (m + 1)
      = paging_step refstr frameCount swap_heuristic st := by
  unfold paging_run at hrun ⊢
  rw [paging_loop_succ, hrun, Option.some_bind,
    if_pos ((char_at_ne_zero_iff hv _).mpr hi)]

/-- A state of a run with one of the two heuristics and at least one frame
satisfies the invariant of the main loop. -/
theorem reached_good {refstr : List Int} (hv : valid_string refstr) {frameCount : Int}
    (hf : 1 ≤ frameCount) {swap_heuristic : Heuristic}
    (hs : swap_heuristic = optimal_swap ∨ swap_heuristic = lru_swap) {m : Nat}
    {st : State} (hrun : paging_run refstr frameCount swap_heuristic m = some st) :
    GoodState refstr frameCount.toNat st := by
  obtain ⟨st2, hrun2, hgood, _⟩ := run_good hv hf hs m
  rw [hrun] at hrun2
  have e : st = st2 := by simpa using hrun2
  rw [e]; exact hgood

/-- The heuristic of the run returns a slot at a miss on a full table. -/
theorem reached_swap {refstr : List Int} (hv : valid_string refstr) {frameCount : Int}
    (hf : 1 ≤ frameCount) {swap_heuristic : Heuristic}
    (hs : swap_heuristic = optimal_swap ∨ swap_heuristic = lru_swap) {st : State}
    (hgood : GoodState refstr frameCount.toNat st) (hi : st.i < refstr.length)
    (h0 : (0 : Int) ∉ st.frames) :
    ∃ k : Nat, k < st.frames.length ∧
      swap_heuristic refstr st.frames frameCount (st.i : Int) = some (k : Int) := by
  have e : ((frameCount.toNat : Nat) : Int) = frameCount := Int.toNat_of_nonneg (by omega)
  obtain ⟨k, hk, hswap⟩ := policy_ok hv (n := frameCount.toNat) (by omega) hs st.frames st.i
    (full_of_inv hgood.inv h0) hgood.frames_len hi
  rw [e] at hswap
  exact ⟨k, by rw [hgood.frames_len]; exact hk, hswap⟩

/-- The two cases of an iteration that leave the heuristic aside. -/
theorem step_no_swap (refstr : List Int) (frameCount : Int)
    (swap1 swap2 : Heuristic) (st : State)
    (h : _atoi (char_at refstr st.i) ∈ st.frames ∨ (0 : Int) ∈ st.frames) :
    paging_step refstr frameCount swap1 st = paging_step refstr frameCount swap2 st := by
  by_cases hmem : _atoi (char_at refstr st.i) ∈ st.frames
  · have h1 := lookup_found _ st.frames 0 (-1) (le_refl _) hmem
    simp only [paging_step, h1, if_false]
  · have h0 : (0 : Int) ∈ st.frames := by
      rcases h with h | h
      · exact absurd h hmem
      · exact h
    have h1 := lookup_not_found _ st.frames 0 (-1) hmem
    obtain ⟨k, hk, hval, _, _⟩ := lookup_open _ st.frames 0 (-1) hmem h0
    have h2 : (lookup (_atoi (char_at refstr st.i)) st.frames 0 (-1)).2 ≠ -1 := by
      rw [hval]; omega
    simp only [paging_step, h1, if_true, h2, ne_eq, not_false_eq_true]

/-! ## Proofs: the empty slots come first -/

/-- Storing a page in the last empty slot keeps the empty slots before the
occupied ones. -/
theorem zeros_first_set {fr : List Int} {k : Nat} {p : Int} (hp : p ≠ 0)
    (hz : ∀ (a b : Nat) (ha : a < fr.length) (hb : b < fr.length), a ≤ b → fr[b] = 0 →
      fr[a] = 0)
    (hlast : ∀ (m : Nat) (hm : m < fr.length), k < m → fr[m] ≠ 0) :
    ∀ (a b : Nat) (ha : a < (fr.set k p).length) (hb : b < (fr.set k p).length),
      a ≤ b → (fr.set k p)[b] = 0 → (fr.set k p)[a] = 0 := by
  intro a b ha hb hab hb0
  have ha2 : a < fr.length := by simpa using ha
  have hb2 : b < fr.length := by simpa using hb
  rw [List.getElem_set] at hb0 ⊢
  by_cases hkb : k = b
  · rw [if_pos hkb] at hb0
    exact absurd hb0 hp
  · rw [if_neg hkb] at hb0
    have hbk : b < k := by
      by_contra hc
      exact hlast b hb2 (by omega) hb0
    rw [if_neg (by omega)]
    exact hz a b ha2 hb2 hab hb0

theorem zeros_first_full {fr : List Int} {k : Nat} {p : Int} (hp : p ≠ 0)
    (h0 : (0 : Int) ∉ fr) :
    ∀ (a b : Nat) (ha : a < (fr.set k p).length) (hb : b < (fr.set k p).length),
      a ≤ b → (fr.set k p)[b] = 0 → (fr.set k p)[a] = 0 := by
  intro a b ha hb _ hb0
  have hb2 : b < fr.length := by simpa using hb
  rw [List.getElem_set] at hb0
  split_ifs at hb0 with hkb
  · exact absurd hb0 hp
  · exact absurd (hb0 ▸ List.getElem_mem hb2) h0

/-- Every iteration keeps the empty slots before the occupied ones. -/
theorem step_zeros_first {refstr : List Int} (hv : valid_string refstr) {n : Nat}
    {swap_heuristic : Heuristic} (hs : swap_ok refstr n swap_heuristic) (st : State)
    (h : GoodState refstr n st ∧
      ∀ (a b : Nat) (ha : a < st.frames.length) (hb : b < st.frames.length), a ≤ b →
        st.frames[b] = 0 → st.frames[a] = 0)
    (hi : st.i < refstr.length) :
    ∃ st2, paging_step refstr (n : Int) swap_heuristic st = some st2 ∧
      (GoodState refstr n st2 ∧
        ∀ (a b : Nat) (ha : a < st2.frames.length) (hb : b < st2.frames.length), a ≤ b →
          st2.frames[b] = 0 → st2.frames[a] = 0) ∧
      st2.i = st.i + 1 := by
  obtain ⟨hgood, hz⟩ := h
  have hhl : st.i < st.hits.length := by rw [good_hits_length hgood]; exact hi
  obtain ⟨h1, h5⟩ := valid_getElem hv hi
  have hp0 : _atoi refstr[st.i] ≠ 0 := by omega
  rw [← char_at_lt hi] at h1 h5 hp0
  by_cases hmem : _atoi (char_at refstr st.i) ∈ st.frames
  · exact ⟨_, step_hit refstr n swap_heuristic hhl hmem, ⟨good_hit hgood hi, hz⟩, rfl⟩
  · by_cases h0 : (0 : Int) ∈ st.frames
    · obtain ⟨k, hk, _, hlast, hstep⟩ := step_open refstr n swap_heuristic hhl hmem h0
      exact ⟨_, hstep, ⟨good_miss hgood hi hmem h1 h5 hk,
        zeros_first_set hp0 hz hlast⟩, rfl⟩
    · obtain ⟨k, hk, hswap⟩ := hs st.frames st.i (full_of_inv hgood.inv h0)
        hgood.frames_len hi
      have hk2 : k < st.frames.length := by rw [hgood.frames_len]; exact hk
      exact ⟨_, step_full refstr n swap_heuristic hhl hmem h0 hk2 hswap,
        ⟨good_miss hgood hi hmem h1 h5 hk2, zeros_first_full hp0 h0⟩, rfl⟩

/-- In every state of a run the empty slots come before the occupied ones. -/
theorem run_zeros_first {refstr : List Int} (hv : valid_string refstr) {frameCount : Int}
    (hf : 1 ≤ frameCount) {swap_heuristic : Heuristic}
    (hs : swap_heuristic = optimal_swap ∨ swap_heuristic = lru_swap) (m : Nat) :
    ∃ st, paging_run refstr frameCount swap_heuristic m = some st ∧
      GoodState refstr frameCount.toNat st ∧
      ∀ (a b : Nat) (ha : a < st.frames.length) (hb : b < st.frames.length), a ≤ b →
        st.frames[b] = 0 → st.frames[a] = 0 := by
  have e : ((frameCount.toNat : Nat) : Int) = frameCount := Int.toNat_of_nonneg (by omega)
  have hn : 1 ≤ frameCount.toNat := by omega
  obtain ⟨st, hloop, ⟨hgood, hz⟩, _⟩ := loop_induct hv (frameCount.toNat : Int)
    swap_heuristic
    (fun st => GoodState refstr frameCount.toNat st ∧
      ∀ (a b : Nat) (ha : a < st.frames.length) (hb : b < st.frames.length), a ≤ b →
        st.frames[b] = 0 → st.frames[a] = 0)
    (fun _ h => h.1.i_le) (step_zeros_first hv (policy_ok hv hn hs)) m
    (paging_init refstr (frameCount.toNat : Int))
    ⟨good_init refstr hv frameCount.toNat, by
      intro a b ha hb _ _
      simp [paging_init]⟩
  rw [e] at hloop
  exact ⟨st, hloop, hgood, hz⟩

/-! ## Proofs: the frames of LRU are the top of the LRU stack -/

theorem recency_toFinset : ∀ hist : List Int, (recency hist).toFinset = hist.toFinset
  | [] => rfl
  | p :: hist => by
    ext x
    simp only [recency, List.toFinset_cons, Finset.mem_insert, List.mem_toFinset]
    rw [(recency_nodup hist).mem_erase_iff, ← List.mem_toFinset (l := recency hist),
      recency_toFinset hist, List.mem_toFinset]
    by_cases hx : x = p
    · simp [hx]
    · simp [hx]

theorem recency_length (hist : List Int) : (recency hist).length = hist.dedup.length := by
  rw [← List.toFinset_card_of_nodup (recency_nodup hist), recency_toFinset,
    List.card_toFinset]

theorem lru_set_hit {k : Nat} {hist : List Int} {X : Finset Int} {r : Int}
    (hr : r ∈ X) (hX : X = ((recency hist).take k).toFinset) :
    X = ((recency (r :: hist)).take k).toFinset := by
  have hr2 : r ∈ (recency hist).take k := by
    rw [hX] at hr; exact List.mem_toFinset.mp hr
  rw [recency, take_move_front _ _ hr2]
  exact hX

theorem lru_set_load {k : Nat} {hist : List Int} {X : Finset Int} {r : Int}
    (hr : r ∉ X) (hlt : X.card < k) (hX : X = ((recency hist).take k).toFinset) :
    insert r X = ((recency (r :: hist)).take k).toFinset := by
  have hnd := recency_nodup hist
  have hr2 : r ∉ (recency hist).take k := by
    rw [hX] at hr; exact fun e => hr (List.mem_toFinset.mpr e)
  have hlen : (recency hist).length < k := by
    rw [hX, card_take_toFinset hnd] at hlt
    omega
  have htake : (recency hist).take k = recency hist := List.take_of_length_le (by omega)
  rw [htake] at hr2
  rw [recency, List.erase_of_not_mem hr2, List.take_of_length_le (by simp; omega),
    List.toFinset_cons, hX, htake]

/-- On a full table whose pages are the top of the LRU stack, the backward scan
leaves flagged only the pages outside the `j` most recently referenced ones. -/
theorem lru_scan_top {j : Nat} {hist : List Int} {X : Finset Int}
    (hX : X = ((recency hist).take (j + 1)).toFinset) :
    scanF hist j X = X \ ((recency hist).take j).toFinset := by
  have hnd := recency_nodup hist
  rw [scanF_recency, hX, filter_mem_take hnd, List.take_take]
  have e : min j (j + 1) = j := by omega
  rw [e]

theorem lru_set_evict {j : Nat} {hist : List Int} {X : Finset Int} {r v : Int}
    (hr : r ∉ X) (hfull : X.card = j + 1) (hv : v ∈ X) (hrule : v ∈ scanF hist j X)
    (hX : X = ((recency hist).take (j + 1)).toFinset) :
    insert r (X.erase v) = ((recency (r :: hist)).take (j + 1)).toFinset := by
  have hnd := recency_nodup hist
  have hr2 : r ∉ (recency hist).take (j + 1) := by
    rw [hX] at hr; exact fun e => hr (List.mem_toFinset.mpr e)
  have hlen : j + 1 ≤ (recency hist).length := by
    rw [hX, card_take_toFinset hnd] at hfull
    omega
  have hr3 : r ∉ (recency hist).take j := fun e => hr2 (mem_take_succ e)
  have hv2 : v ∉ ((recency hist).take j).toFinset := by
    rw [lru_scan_top hX] at hrule
    exact (Finset.mem_sdiff.mp hrule).2
  have hsub : ((recency hist).take j).toFinset ⊆ X.erase v := by
    intro x hx
    refine Finset.mem_erase.mpr ⟨fun e => hv2 (e ▸ hx), ?_⟩
    rw [hX]
    exact List.mem_toFinset.mpr (mem_take_succ (List.mem_toFinset.mp hx))
  have heq : ((recency hist).take j).toFinset = X.erase v := by
    apply Finset.eq_of_subset_of_card_le hsub
    rw [Finset.card_erase_of_mem hv, hfull, card_take_toFinset hnd]
    omega
  rw [recency, List.take_succ_cons, List.toFinset_cons, take_erase_of_not_mem _ _ hr3, heq]

/-- On a full table whose pages are the top of the LRU stack, the backward scan
leaves exactly one page flagged. -/
theorem lru_one_flag {j : Nat} {hist : List Int} {X : Finset Int}
    (hfull : X.card = j + 1) (hX : X = ((recency hist).take (j + 1)).toFinset) :
    (scanF hist j X).card = 1 := by
  have hnd := recency_nodup hist
  have hlen : j + 1 ≤ (recency hist).length := by
    rw [hX, card_take_toFinset hnd] at hfull
    omega
  have hsub : ((recency hist).take j).toFinset ⊆ X := by
    intro x hx
    rw [hX]
    exact List.mem_toFinset.mpr (mem_take_succ (List.mem_toFinset.mp hx))
  rw [lru_scan_top hX, Finset.card_sdiff hsub, hfull, card_take_toFinset hnd]
  omega

theorem lru_swap_flags (refstr frames : List Int) (frameCount startPosition : Int) :
    lru_swap refstr frames frameCount startPosition
      = (lru_flags refstr frames frameCount startPosition).bind fun a =>
          find_good a (frames.take frameCount.toNat) page_ids := by
  unfold lru_swap lru_flags
  split_ifs
  · rfl
  · simp only [Option.bind_assoc]

/-- The array `last_use` after the backward scan on a full frame table. -/
theorem lru_flags_spec {refstr : List Int} (hv : valid_string refstr)
    {frames : List Int} (hfull : full_table frames) (hn : 1 ≤ frames.length) {i : Nat}
    (hi : i ≤ refstr.length) :
    ∃ a, lru_flags refstr frames (frames.length : Int) (i : Int) = some a ∧
      Rep a (scanF ((pages refstr).take i).reverse (frames.length - 1) frames.toFinset) := by
  obtain ⟨b, hb, hrepb⟩ := rep_enable (full_table_range hfull) rep_init
  have e2 : ((frames.length : Int) - 1) = ((frames.length - 1 : Nat) : Int) := by omega
  obtain ⟨c, hc, hrepc⟩ := lru_scan_spec hv i (frames.length - 1) b _ hi hrepb
  rw [Finset.empty_union] at hrepc
  refine ⟨c, ?_, hrepc⟩
  simp only [lru_flags, Int.toNat_ofNat, lt_irrefl, if_false, List.take_length, hb,
    Option.some_bind, e2, hc]

/-- An array that flags the pages of a singleton has exactly one cell holding 1
among those of the pages `1 .. PAGE_COUNT`. -/
theorem rep_one_flag {a : List (Option Int)} {G : Finset Int} (h : Rep a G)
    (hG : ∀ q ∈ G, 1 ≤ q ∧ q ≤ 5) (hcard : G.card = 1) :
    ∃! q : Int, 1 ≤ q ∧ q ≤ (PAGE_COUNT : Int) ∧ cell_get a q = some 1 := by
  obtain ⟨v, hv⟩ := Finset.card_eq_one.mp hcard
  have hvG : v ∈ G := by rw [hv]; exact Finset.mem_singleton_self v
  obtain ⟨h1, h5⟩ := hG v hvG
  refine ⟨v, ⟨h1, by simpa [PAGE_COUNT] using h5, by rw [h.2 v h1 h5, if_pos hvG]⟩, ?_⟩
  rintro q ⟨hq1, hq5, hq⟩
  have hq5b : q ≤ 5 := by simpa [PAGE_COUNT] using hq5
  rw [h.2 q hq1 hq5b] at hq
  by_cases hqG : q ∈ G
  · rw [hv] at hqG
    exact Finset.mem_singleton.mp hqG
  · rw [if_neg hqG] at hq
    simp at hq

/-- Every iteration with `lru_swap` keeps in the frames the top of the LRU
stack. -/
theorem step_lru {refstr : List Int} (hv : valid_string refstr) {n : Nat} (hn : 1 ≤ n)
    (st : State)
    (h : GoodState refstr n st ∧
      resident st.frames
        = ((recency ((pages refstr).take st.i).reverse).take n).toFinset)
    (hi : st.i < refstr.length) :
    ∃ st2, paging_step refstr (n : Int) lru_swap st = some st2 ∧
      (GoodState refstr n st2 ∧
        resident st2.frames
          = ((recency ((pages refstr).take st2.i).reverse).take n).toFinset) ∧
      st2.i = st.i + 1 := by
  obtain ⟨hgood, hres⟩ := h
  have hhl : st.i < st.hits.length := by rw [good_hits_length hgood]; exact hi
  obtain ⟨h1, h5⟩ := valid_getElem hv hi
  have hp0 : _atoi refstr[st.i] ≠ 0 := by omega
  rw [← char_at_lt hi] at h1 h5 hp0
  have hrev : ((pages refstr).take (st.i + 1)).reverse
      = _atoi (char_at refstr st.i) :: ((pages refstr).take st.i).reverse := by
    rw [pages_take_reverse hi, char_at_lt hi]
  by_cases hmem : _atoi (char_at refstr st.i) ∈ st.frames
  · refine ⟨_, step_hit refstr n lru_swap hhl hmem, ⟨good_hit hgood hi, ?_⟩, rfl⟩
    show resident st.frames = _
    rw [hrev]
    exact lru_set_hit (mem_resident.mpr ⟨hmem, hp0⟩) hres
  · have hnr : _atoi (char_at refstr st.i) ∉ resident st.frames :=
      fun e => hmem (mem_resident.mp e).1
    by_cases h0 : (0 : Int) ∈ st.frames
    · obtain ⟨k, hk, hz, _, hstep⟩ := step_open refstr n lru_swap hhl hmem h0
      refine ⟨_, hstep, ⟨good_miss hgood hi hmem h1 h5 hk, ?_⟩, rfl⟩
      show resident (st.frames.set k (_atoi (char_at refstr st.i))) = _
      rw [resident_set_open hk hz hp0, hrev]
      exact lru_set_load hnr (by rw [← hgood.frames_len]; exact card_resident_lt h0) hres
    · have hfull := full_of_inv hgood.inv h0
      have hlen1 : 1 ≤ st.frames.length := by rw [hgood.frames_len]; exact hn
      obtain ⟨k, hk, hswap, hrule, _⟩ := lru_swap_spec hv hfull hlen1 (Nat.le_of_lt hi)
      rw [hgood.frames_len] at hswap hrule
      refine ⟨_, step_full refstr n lru_swap hhl hmem h0 hk hswap,
        ⟨good_miss hgood hi hmem h1 h5 hk, ?_⟩, rfl⟩
      show resident (st.frames.set k (_atoi (char_at refstr st.i))) = _
      obtain ⟨j, rfl⟩ : ∃ j, n = j + 1 := ⟨n - 1, by omega⟩
      rw [resident_set_full hfull hk hp0, hrev]
      have hcard : (resident st.frames).card = j + 1 := by
        rw [card_resident_full hfull, hgood.frames_len]
      have hkr : st.frames[k] ∈ resident st.frames :=
        mem_resident.mpr ⟨List.getElem_mem _, fun e => h0 (e ▸ List.getElem_mem _)⟩
      rw [← resident_full h0] at hrule
      exact lru_set_evict hnr hcard hkr hrule hres

/-- In every state of a run with `lru_swap` the frames hold the top of the LRU
stack of the pages processed. -/
theorem run_lru {refstr : List Int} (hv : valid_string refstr) {c : Int} (hc : 1 ≤ c)
    (m : Nat) :
    ∃ st, paging_run refstr c lru_swap m = some st ∧ GoodState refstr c.toNat st ∧
      resident st.frames
        = ((recency ((pages refstr).take st.i).reverse).take c.toNat).toFinset ∧
      st.i = min m refstr.length := by
  have e : ((c.toNat : Nat) : Int) = c := Int.toNat_of_nonneg (by omega)
  have hn : 1 ≤ c.toNat := by omega
  obtain ⟨st, hloop, ⟨hgood, hres⟩, hi⟩ := loop_induct hv (c.toNat : Int) lru_swap
    (fun st => GoodState refstr c.toNat st ∧
      resident st.frames
        = ((recency ((pages refstr).take st.i).reverse).take c.toNat).toFinset)
    (fun _ h => h.1.i_le) (step_lru hv hn) m (paging_init refstr (c.toNat : Int))
    ⟨good_init refstr hv c.toNat, by simp [paging_init, resident_replicate, recency]⟩
  rw [e] at hloop
  exact ⟨st, hloop, hgood, hres, by simpa [paging_init] using hi⟩

/-! ## Proofs: input and output -/

theorem str_get_le {refstr : List Int} (hv : valid_string refstr) {j : Nat}
    (hj : j ≤ refstr.length) : str_get refstr j = some (char_at refstr j) := by
  rw [str_get, getlength_valid hv, if_pos (by exact_mod_cast hj)]

/-- On a non-empty string over the pages `1 .. PAGE_COUNT`, `print_str` from the
index `i` prints the characters from `i` on. -/
theorem print_str_loop_spec {refstr : List Int} (hv : valid_string refstr) :
    ∀ (fuel i : Nat), i < refstr.length → refstr.length ≤ i + fuel →
      print_str_loop refstr fuel i = some (refstr.drop i) := by
  intro fuel
  induction fuel with
  | zero => intro i hi hf; omega
  | succ fuel ih =>
    intro i hi hf
    rw [print_str_loop, str_get_le hv (by omega), str_get_le hv (Nat.le_of_lt hi),
      Option.some_bind, char_at_lt hi]
    by_cases hlast : i + 1 < refstr.length
    · rw [if_pos ((char_at_ne_zero_iff hv (i + 1)).mpr hlast), Option.some_bind,
        ih (i + 1) hlast (by omega), List.drop_eq_getElem_cons hi]
      rfl
    · have h0 : ¬ char_at refstr (i + 1) ≠ 0 := fun e =>
        hlast ((char_at_ne_zero_iff hv _).mp e)
      rw [if_neg h0, List.drop_eq_getElem_cons hi,
        List.drop_eq_nil_of_le (by omega : refstr.length ≤ i + 1)]
      rfl

theorem print_str_valid {refstr : List Int} (hv : valid_string refstr) (hne : refstr ≠ []) :
    print_str refstr = some refstr := by
  have hlen : 0 < refstr.length := List.length_pos.mpr hne
  rw [print_str, print_str_loop_spec hv _ 0 hlen (by omega)]
  rfl

theorem cell_get_written (tr : List Int) {i : Nat} (hi : i < tr.length) :
    cell_get (tr.map some) (i : Int) = some tr[i] := by
  have hneg : ¬ ((i : Int) < 0) := by omega
  simp [cell_get, arr_get, hneg, List.getElem?_eq_getElem hi]

/-- On an array `hits` whose cells were all written, `print_hits` from the index
`i` prints the marks of the cells from `i` on. -/
theorem print_hits_loop_spec (tr : List Int) : ∀ (fuel i : Nat), i < tr.length →
    tr.length ≤ i + fuel + 1 →
    print_hits_loop (tr.map some) (tr.length : Int) fuel (i : Int)
      = some ((tr.drop i).map hit_mark) := by
  intro fuel
  induction fuel with
  | zero =>
    intro i hi hf
    have hc : ¬ ((i : Int) < (tr.length : Int) - 1) := by omega
    have hcell : cell_get (tr.map some) (i : Int) = some tr[i] :=
      cell_get_written tr hi
    rw [print_hits_loop, if_neg hc, hcell, List.drop_eq_getElem_cons hi,
      List.drop_eq_nil_of_le (by omega : tr.length ≤ i + 1)]
    rfl
  | succ fuel ih =>
    intro i hi hf
    have hcell : cell_get (tr.map some) (i : Int) = some tr[i] :=
      cell_get_written tr hi
    rw [print_hits_loop, hcell, List.drop_eq_getElem_cons hi]
    by_cases hlast : i + 1 < tr.length
    · have hc : (i : Int) < (tr.length : Int) - 1 := by omega
      have e1 : ((i : Int) + 1) = ((i + 1 : Nat) : Int) := by push_cast; rfl
      rw [if_pos hc, Option.some_bind, e1, ih (i + 1) hlast (by omega)]
      rfl
    · have hc : ¬ ((i : Int) < (tr.length : Int) - 1) := by omega
      rw [if_neg hc, List.drop_eq_nil_of_le (by omega : tr.length ≤ i + 1)]
      rfl

theorem print_hits_written {tr : List Int} (hne : tr ≠ []) :
    print_hits (tr.map some) (tr.length : Int) = some (tr.map hit_mark) := by
  have hlen : 0 < tr.length := List.length_pos.mpr hne
  have := print_hits_loop_spec tr ((tr.length : Int) - 1).toNat 0 hlen (by omega)
  rw [print_hits]
  simpa using this

theorem map_some_getD {tr : List (Option Int)} (h : ∀ e ∈ tr, e = some 0 ∨ e = some 1) :
    (tr.map fun e => e.getD 0).map some = tr := by
  induction tr with
  | nil => rfl
  | cons e rest ih =>
    have he := h e (List.mem_cons_self _ _)
    have hrest := ih (fun d hd => h d (List.mem_cons_of_mem _ hd))
    rcases he with e0 | e1
    · subst e0; simp only [List.map_cons, Option.getD_some]; rw [hrest]
    · subst e1; simp only [List.map_cons, Option.getD_some]; rw [hrest]

/-- On a non-empty reference string over the pages `1 .. PAGE_COUNT`, with at
least one frame and either heuristic, `paging_test` with its two printing calls is
defined: it prints the string and one mark per position, and returns the fault
count that `paging_test` gives. -/
theorem printing_defined {refstr : List Int} (hv : valid_string refstr) (hne : refstr ≠ [])
    {frameCount : Int} (hf : 1 ≤ frameCount) {swap_heuristic : Heuristic}
    (hs : swap_heuristic = optimal_swap ∨ swap_heuristic = lru_swap) :
    ∃ (f : Int) (tr : List Int), tr.length = refstr.length ∧
      paging_test refstr frameCount swap_heuristic = some (f, tr.map some) ∧
      paging_test_printing refstr frameCount swap_heuristic
        = some (f, refstr, tr.map hit_mark) := by
  obtain ⟨st, hrun, hgood, hi⟩ := run_good hv hf hs refstr.length
  obtain ⟨tr, hh, hlen, hall, _⟩ := hgood.trace
  have hi2 : st.i = refstr.length := by simpa using hi
  have hh2 : st.hits = tr := by simpa [hi2] using hh
  have hlen2 : (tr.map fun e => e.getD 0).length = refstr.length := by
    rw [List.length_map, hlen, hi2]
  have hne2 : (tr.map fun e => e.getD 0) ≠ [] := by
    intro e0
    rw [e0] at hlen2
    exact hne (List.length_eq_zero.mp hlen2.symm)
  refine ⟨st.fault_count, tr.map fun e => e.getD 0, hlen2, ?_, ?_⟩
  · rw [map_some_getD hall, ← hh2]
    simp [paging_test, hrun]
  · have hp := print_hits_written hne2
    rw [map_some_getD hall, hlen2, ← getlength_valid hv, ← hh2] at hp
    simp only [paging_test_printing, hrun, Option.some_bind, print_str_valid hv hne, hp]
    rw [hh2]

/-- Two runs of `paging_test` with its printing calls: the shortest string that
`get_input` can return, and `1,2,3,4,1,2,5,1,2,3,4,5` with 3 frames and LRU. -/
theorem printing_runs :
    paging_test_printing (digits [2]) 1 optimal_swap = some (1, digits [2], [0]) ∧
    paging_test_printing belady_string 3 lru_swap
      = some (10, belady_string, [0, 0, 0, 0, 0, 0, 0, 1, 1, 0, 0, 0]) := by
  decide

/-! ## Proofs: the call of the heuristic without any frame -/

/-- An iteration that reaches the call of the heuristic: the miss is counted and
recorded, then the heuristic is called, and its result is used as an index of
`frames`. -/
theorem paging_step_at_swap (refstr : List Int) (frameCount : Int)
    (swap_heuristic : Heuristic) (st : State) (h : calls_swap refstr st = true) :
    paging_step refstr frameCount swap_heuristic st
      = (miss_state st).bind fun st1 =>
          (swap_heuristic refstr st.frames frameCount st.i).bind fun swap_id =>
            (arr_set st.frames swap_id (_atoi (char_at refstr st.i))).bind fun frames =>
              some { i := st.i + 1, fault_count := st1.fault_count, frames := frames,
                     hits := st1.hits } := by
  have h2 := of_decide_eq_true h
  simp only [paging_step, miss_state, h2.1, h2.2, if_true, ne_eq, not_true_eq_false,
    if_false]
  cases arr_set st.hits st.i (some 0) <;> rfl

/-- C5, as stated: `paging_test` with `lru_swap` on `1,2,3,4,1,2,5,1,2,3,4,5` and
3 frames does not return the fault count 9. -/
theorem lru_belady_string_not_nine :
    (paging_test belady_string 3 lru_swap).map Prod.fst ≠ some 9 := by
  decide

/-- C5, amended: `paging_test` with `lru_swap` on `1,2,3,4,1,2,5,1,2,3,4,5` and
3 frames returns the fault count 10; only positions 7 and 8 are hits. -/
theorem lru_belady_string_ten :
    paging_test belady_string 3 lru_swap
      = some (10, [some 0, some 0, some 0, some 0, some 0, some 0, some 0,
                   some 1, some 1, some 0, some 0, some 0]) := by
  decide

/-- C6: `paging_test` with `optimal_swap` on `1,2,3,4,1,2,5,1,2,3,4,5` and 3
frames returns the fault count 7. -/
theorem optimal_belady_string_seven :
    paging_test belady_string 3 optimal_swap
      = some (7, [some 0, some 0, some 0, some 0, some 1, some 1, some 0,
                  some 1, some 1, some 0, some 0, some 1]) := by
  decide

/-- C7: on `1,2,3,1,2,3` with 3 frames `paging_test` returns the fault count 3
with `optimal_swap` and with `lru_swap`; and it returns the same with every
function passed as `swap_heuristic`, also one that always fails, so that no run
calls the heuristic. -/
theorem three_pages_three_frames :
    paging_test (digits [1, 2, 3, 1, 2, 3]) 3 optimal_swap
        = some (3, [some 0, some 0, some 0, some 1, some 1, some 1]) ∧
    paging_test (digits [1, 2, 3, 1, 2, 3]) 3 lru_swap
        = some (3, [some 0, some 0, some 0, some 1, some 1, some 1]) ∧
    ∀ swap_heuristic : Heuristic,
      paging_test (digits [1, 2, 3, 1, 2, 3]) 3 swap_heuristic
        = some (3, [some 0, some 0, some 0, some 1, some 1, some 1]) :=
  ⟨by decide, by decide, fun _ => rfl⟩

/-! ## The empty reference string -/

/-- C4: for a reference string over the pages `1 .. PAGE_COUNT`, at least one
frame and either heuristic, `paging_test` returns; the array `hits` has one cell
per position of the reference string, each cell was written (with 0 or 1), and
the returned fault count is the number of cells holding 0. -/
theorem trace_counts_faults (refstr : List Int) (frameCount : Int)
    (swap_heuristic : Heuristic) (hv : valid_string refstr) (hf : 1 ≤ frameCount)
    (hs : swap_heuristic = optimal_swap ∨ swap_heuristic = lru_swap) :
    ∃ (fault_count : Int) (hits : List (Option Int)),
      paging_test refstr frameCount swap_heuristic = some (fault_count, hits) ∧
      (hits.length : Int) = getlength refstr ∧
      (∀ e ∈ hits, e = some 0 ∨ e = some 1) ∧
      fault_count = (hits.count (some 0) : Int) := by
  obtain ⟨st, hrun, hgood, hi⟩ := run_good hv hf hs refstr.length
  obtain ⟨tr, hh, hlen, hall, hfc⟩ := hgood.trace
  have hi2 : st.i = refstr.length := by simpa using hi
  have hh2 : st.hits = tr := by simpa [hi2] using hh
  refine ⟨st.fault_count, st.hits, by simp [paging_test, hrun], ?_, ?_, ?_⟩
  · rw [getlength_valid hv, hh2, hlen, hi2]
  · rw [hh2]; exact hall
  · rw [hh2]; exact hfc

/-- C4, at `1,2,3,4,1,2,5,1,2,3,4,5` with 3 frames and `lru_swap`. -/
theorem trace_counts_faults_witness :
    valid_string belady_string ∧ (1 : Int) ≤ 3 ∧
    ∃ (fault_count : Int) (hits : List (Option Int)),
      paging_test belady_string 3 lru_swap = some (fault_count, hits) ∧
      (hits.length : Int) = getlength belady_string ∧
      (∀ e ∈ hits, e = some 0 ∨ e = some 1) ∧
      fault_count = (hits.count (some 0) : Int) :=
  ⟨by decide, by decide,
    trace_counts_faults belady_string 3 lru_swap (by decide) (by decide) (Or.inr rfl)⟩

/-- C10: for a reference string over the pages `1 .. PAGE_COUNT`, at least one
frame and either heuristic, the state of `paging_test` after any number `m` of
iterations of its main loop exists, every slot of `frames` holds 0 or a page of
`1 .. PAGE_COUNT`, and no non-zero value is in two slots. -/
theorem frame_table_invariant (refstr : List Int) (frameCount : Int)
    (swap_heuristic : Heuristic) (m : Nat) (hv : valid_string refstr)
    (hf : 1 ≤ frameCount)
    (hs : swap_heuristic = optimal_swap ∨ swap_heuristic = lru_swap) :
    ∃ st, paging_run refstr frameCount swap_heuristic m = some st ∧
      (∀ f ∈ st.frames, f = 0 ∨ (1 ≤ f ∧ f ≤ (PAGE_COUNT : Int))) ∧
      ∀ (j k : Nat) (hj : j < st.frames.length) (hk : k < st.frames.length),
        st.frames[j] ≠ 0 → st.frames[j] = st.frames[k] → j = k := by
  obtain ⟨st, hrun, hgood, _⟩ := run_good hv hf hs m
  exact ⟨st, hrun, hgood.inv.1, hgood.inv.2⟩

/-- C10, at `1,2,3,4,1,2,5,1,2,3,4,5` with 3 frames and `optimal_swap`, after 7
iterations. -/
theorem frame_table_invariant_witness :
    valid_string belady_string ∧ (1 : Int) ≤ 3 ∧
    ∃ st, paging_run belady_string 3 optimal_swap 7 = some st ∧
      (∀ f ∈ st.frames, f = 0 ∨ (1 ≤ f ∧ f ≤ (PAGE_COUNT : Int))) ∧
      ∀ (j k : Nat) (hj : j < st.frames.length) (hk : k < st.frames.length),
        st.frames[j] ≠ 0 → st.frames[j] = st.frames[k] → j = k :=
  ⟨by decide, by decide,
    frame_table_invariant belady_string 3 optimal_swap 7 (by decide) (by decide)
      (Or.inl rfl)⟩

/-! ## Fault counts -/

/-- C2: for a reference string over the pages `1 .. PAGE_COUNT` and a frame count
that is at least the number of distinct pages of the string, `paging_test` returns
the number of distinct pages as its fault count, with `optimal_swap`, with
`lru_swap`, and with any other function as the heuristic. -/
theorem enough_frames_distinct_pages (refstr : List Int) (frameCount : Int)
    (swap_heuristic : Heuristic) (hv : valid_string refstr)
    (hf : (distinct_pages refstr : Int) ≤ frameCount) :
    ∃ hits, paging_test refstr frameCount swap_heuristic
      = some ((distinct_pages refstr : Int), hits) := by
  have e : ((frameCount.toNat : Nat) : Int) = frameCount := Int.toNat_of_nonneg (by omega)
  have := enough_frames hv (n := frameCount.toNat) (by omega) swap_heuristic
  rw [e] at this
  exact this

/-- C2, at `1,2,3,4,1,2,5,1,2,3,4,5` (5 distinct pages) with 5 frames and
`lru_swap`. -/
theorem enough_frames_distinct_pages_witness :
    valid_string belady_string ∧ (distinct_pages belady_string : Int) ≤ 5 ∧
    ∃ hits, paging_test belady_string 5 lru_swap
      = some ((distinct_pages belady_string : Int), hits) :=
  ⟨by decide, by decide,
    enough_frames_distinct_pages belady_string 5 lru_swap (by decide) (by decide)⟩

/-- C1: for a reference string over the pages `1 .. PAGE_COUNT` and at least one
frame, `paging_test` returns with `optimal_swap` and with `lru_swap`, and the fault
count with `optimal_swap` is at most the fault count with `lru_swap`. -/
theorem optimal_le_lru (refstr : List Int) (frameCount : Int)
    (hv : valid_string refstr) (hf : 1 ≤ frameCount) :
    ∃ (fo fl : Int) (ho hl : List (Option Int)),
      paging_test refstr frameCount optimal_swap = some (fo, ho) ∧
      paging_test refstr frameCount lru_swap = some (fl, hl) ∧ fo ≤ fl := by
  have e : ((frameCount.toNat : Nat) : Int) = frameCount := Int.toNat_of_nonneg (by omega)
  have hn : 1 ≤ frameCount.toNat := by omega
  obtain ⟨c, ho, hto, _, hbest⟩ := optimal_test hv hn
  obtain ⟨cl, hl, htl, hrun⟩ := test_run hv (lru_swap_rule hv hn)
  have hle := hbest cl (run_sched (le_refl _) hrun (by simp))
  rw [e] at hto htl
  exact ⟨c, cl, ho, hl, hto, htl, by exact_mod_cast hle⟩

/-- C1, at `1,2,3,4,1,2,5,1,2,3,4,5` with 3 frames. -/
theorem optimal_le_lru_witness :
    valid_string belady_string ∧ (1 : Int) ≤ 3 ∧
    ∃ (fo fl : Int) (ho hl : List (Option Int)),
      paging_test belady_string 3 optimal_swap = some (fo, ho) ∧
      paging_test belady_string 3 lru_swap = some (fl, hl) ∧ fo ≤ fl :=
  ⟨by decide, by decide, optimal_le_lru belady_string 3 (by decide) (by decide)⟩

/-- C3: for a reference string over the pages `1 .. PAGE_COUNT`, a frame count
`c ≥ 1` and either heuristic, `paging_test` returns with `c` and with `c + 1`
frames, and the fault count with `c + 1` frames is at most the one with `c`. -/
theorem more_frames_no_more_faults (refstr : List Int) (c : Int)
    (swap_heuristic : Heuristic) (hv : valid_string refstr) (hc : 1 ≤ c)
    (hs : swap_heuristic = optimal_swap ∨ swap_heuristic = lru_swap) :
    ∃ (f1 f2 : Int) (h1 h2 : List (Option Int)),
      paging_test refstr c swap_heuristic = some (f1, h1) ∧
      paging_test refstr (c + 1) swap_heuristic = some (f2, h2) ∧ f2 ≤ f1 := by
  have e : ((c.toNat : Nat) : Int) = c := Int.toNat_of_nonneg (by omega)
  have e2 : (((c.toNat + 1 : Nat)) : Int) = c + 1 := by push_cast; rw [e]
  have hn : 1 ≤ c.toNat := by omega
  rcases hs with hs | hs <;> subst hs
  · obtain ⟨c1, h1, ht1, hrun1, _⟩ := optimal_test hv hn
    obtain ⟨c2, h2, ht2, _, hbest⟩ := optimal_test hv (n := c.toNat + 1) (by omega)
    have hle := hbest c1 (run_sched (Nat.le_succ _) hrun1 (by simp))
    rw [e] at ht1
    rw [e2] at ht2
    exact ⟨c1, c2, h1, h2, ht1, ht2, by exact_mod_cast hle⟩
  · obtain ⟨h1, ht1⟩ := lru_test hv hn
    obtain ⟨h2, ht2⟩ := lru_test hv (n := c.toNat + 1) (by omega)
    rw [e] at ht1
    rw [e2] at ht2
    exact ⟨_, _, h1, h2, ht1, ht2, by exact_mod_cast lru_count_mono _ _ _⟩

/-- C3, at `1,2,3,4,1,2,5,1,2,3,4,5` with 3 and 4 frames and `lru_swap`. -/
theorem more_frames_no_more_faults_witness :
    valid_string belady_string ∧ (1 : Int) ≤ 3 ∧
    ∃ (f1 f2 : Int) (h1 h2 : List (Option Int)),
      paging_test belady_string 3 lru_swap = some (f1, h1) ∧
      paging_test belady_string (3 + 1) lru_swap = some (f2, h2) ∧ f2 ≤ f1 :=
  ⟨by decide, by decide,
    more_frames_no_more_faults belady_string 3 lru_swap (by decide) (by decide)
      (Or.inr rfl)⟩

/-! ## The heuristics on a full frame table -/

/-- C11: for a frame count of at least 1, a full frame table of that length
(pairwise distinct pages of `1 .. PAGE_COUNT`), a reference string over the pages
`1 .. PAGE_COUNT` and a position in it, `optimal_swap` and `lru_swap` each return
an index `k` with `0 ≤ k < frameCount`, not the value `-1` of the error branch. -/
theorem valid_victim (refstr frames : List Int) (frameCount : Int) (p : Nat)
    (hv : valid_string refstr) (hfull : full_table frames)
    (hlen : (frames.length : Int) = frameCount) (hf : 1 ≤ frameCount)
    (hp : p < refstr.length) :
    (∃ k : Int, optimal_swap refstr frames frameCount (p : Int) = some k ∧
      0 ≤ k ∧ k < frameCount) ∧
    (∃ k : Int, lru_swap refstr frames frameCount (p : Int) = some k ∧
      0 ≤ k ∧ k < frameCount) := by
  subst hlen
  obtain ⟨k, hk, hswap, _⟩ := optimal_swap_spec hv hfull (by omega) p
  obtain ⟨k2, hk2, hswap2, _⟩ := lru_swap_spec hv hfull (by omega) (Nat.le_of_lt hp)
  exact ⟨⟨k, hswap, by omega, by omega⟩, ⟨k2, hswap2, by omega, by omega⟩⟩

/-- C11, at `1,2,3,4,1,2,5,1,2,3,4,5`, position 3, with the frames `3, 2, 1`. -/
theorem valid_victim_witness :
    valid_string belady_string ∧ full_table [3, 2, 1] ∧
    (∃ k : Int, optimal_swap belady_string [3, 2, 1] 3 ((3 : Nat) : Int) = some k ∧
      0 ≤ k ∧ k < 3) ∧
    (∃ k : Int, lru_swap belady_string [3, 2, 1] 3 ((3 : Nat) : Int) = some k ∧
      0 ≤ k ∧ k < 3) :=
  ⟨by decide, by decide,
    valid_victim belady_string [3, 2, 1] 3 3 (by decide) (by decide) rfl (by decide)
      (by decide)⟩

/-- C12: on a full frame table (at least one frame), for a reference string over
the pages `1 .. PAGE_COUNT` and a position `p`, `optimal_swap` returns a slot `k`
whose page has the farthest next use: `nextUse frames[j] ≤ nextUse frames[k]` for
every slot `j`, the next use of a page that does not occur after `p` being
infinite. -/
theorem optimal_farthest_next_use (refstr frames : List Int) (frameCount : Int)
    (p : Nat) (hv : valid_string refstr) (hfull : full_table frames)
    (hlen : (frames.length : Int) = frameCount) (hf : 1 ≤ frameCount) :
    ∃ k : Nat, ∃ hk : k < frames.length,
      optimal_swap refstr frames frameCount (p : Int) = some (k : Int) ∧
      ∀ (j : Nat) (hj : j < frames.length),
        nextUse (pages refstr) p frames[j] ≤ nextUse (pages refstr) p frames[k] := by
  subst hlen
  exact optimal_swap_next_use hv hfull (by omega) p

/-- C12, at `1,2,3,4,1,2,5,1,2,3,4,5`, position 3, with the frames `3, 2, 1`. -/
theorem optimal_farthest_next_use_witness :
    valid_string belady_string ∧ full_table [3, 2, 1] ∧
    ∃ k : Nat, ∃ hk : k < [3, 2, 1].length,
      optimal_swap belady_string [3, 2, 1] 3 ((3 : Nat) : Int) = some (k : Int) ∧
      ∀ (j : Nat) (hj : j < [3, 2, 1].length),
        nextUse (pages belady_string) 3 ([3, 2, 1] : List Int)[j]
          ≤ nextUse (pages belady_string) 3 ([3, 2, 1] : List Int)[k] :=
  ⟨by decide, by decide,
    optimal_farthest_next_use belady_string [3, 2, 1] 3 3 (by decide) (by decide) rfl
      (by decide)⟩

/-- C13: on a full frame table (at least one frame), for a reference string over
the pages `1 .. PAGE_COUNT` and a position `p` in it, `lru_swap` returns a slot
`k` whose page has the earliest last use: `lastUse frames[k] ≤ lastUse frames[j]`
for every slot `j`, the last use of a page that does not occur before `p` being
minus infinity. -/
theorem lru_earliest_last_use (refstr frames : List Int) (frameCount : Int)
    (p : Nat) (hv : valid_string refstr) (hfull : full_table frames)
    (hlen : (frames.length : Int) = frameCount) (hf : 1 ≤ frameCount)
    (hp : p < refstr.length) :
    ∃ k : Nat, ∃ hk : k < frames.length,
      lru_swap refstr frames frameCount (p : Int) = some (k : Int) ∧
      ∀ (j : Nat) (hj : j < frames.length),
        lastUse (pages refstr) p frames[k] ≤ lastUse (pages refstr) p frames[j] := by
  subst hlen
  exact lru_swap_last_use hv hfull (by omega) (Nat.le_of_lt hp)

/-- C13, at `1,2,3,4,1,2,5,1,2,3,4,5`, position 3, with the frames `3, 2, 1`. -/
theorem lru_earliest_last_use_witness :
    valid_string belady_string ∧ full_table [3, 2, 1] ∧
    ∃ k : Nat, ∃ hk : k < [3, 2, 1].length,
      lru_swap belady_string [3, 2, 1] 3 ((3 : Nat) : Int) = some (k : Int) ∧
      ∀ (j : Nat) (hj : j < [3, 2, 1].length),
        lastUse (pages belady_string) 3 ([3, 2, 1] : List Int)[k]
          ≤ lastUse (pages belady_string) 3 ([3, 2, 1] : List Int)[j] :=
  ⟨by decide, by decide,
    lru_earliest_last_use belady_string [3, 2, 1] 3 3 (by decide) (by decide) rfl
      (by decide) (by decide)⟩

/-- C14: on a full frame table, for a reference string over the pages
`1 .. PAGE_COUNT` and a position `p` such that some resident page does not occur
after `p`, `optimal_swap` returns the slot of the numerically smallest resident
page that does not occur after `p`. -/
theorem optimal_tie_lowest_page (refstr frames : List Int) (frameCount : Int)
    (p : Nat) (hv : valid_string refstr) (hfull : full_table frames)
    (hlen : (frames.length : Int) = frameCount)
    (hex : ∃ (j : Nat) (hj : j < frames.length),
      frames[j] ∉ (pages refstr).drop (p + 1)) :
    ∃ k : Nat, ∃ hk : k < frames.length,
      optimal_swap refstr frames frameCount (p : Int) = some (k : Int) ∧
      frames[k] ∉ (pages refstr).drop (p + 1) ∧
      ∀ (j : Nat) (hj : j < frames.length),
        frames[j] ∉ (pages refstr).drop (p + 1) → frames[k] ≤ frames[j] := by
  subst hlen
  have hn : 1 ≤ frames.length := by
    obtain ⟨j, hj, _⟩ := hex
    omega
  exact optimal_swap_never_used hv hfull hn p hex

/-- C14, at `1,2,3,4,1,2,5,1,2,3,4,5`, position 9, with the frames `5, 2, 1`:
the pages 2 and 1 do not occur after position 9. -/
theorem optimal_tie_lowest_page_witness :
    valid_string belady_string ∧ full_table [5, 2, 1] ∧
    (∃ (j : Nat) (hj : j < [5, 2, 1].length),
      ([5, 2, 1] : List Int)[j] ∉ (pages belady_string).drop (9 + 1)) ∧
    ∃ k : Nat, ∃ hk : k < [5, 2, 1].length,
      optimal_swap belady_string [5, 2, 1] 3 ((9 : Nat) : Int) = some (k : Int) ∧
      ([5, 2, 1] : List Int)[k] ∉ (pages belady_string).drop (9 + 1) ∧
      ∀ (j : Nat) (hj : j < [5, 2, 1].length),
        ([5, 2, 1] : List Int)[j] ∉ (pages belady_string).drop (9 + 1) →
          ([5, 2, 1] : List Int)[k] ≤ ([5, 2, 1] : List Int)[j] :=
  ⟨by decide, by decide, ⟨1, by decide, by decide⟩,
    optimal_tie_lowest_page belady_string [5, 2, 1] 3 9 (by decide) (by decide) rfl
      ⟨1, by decide, by decide⟩⟩

/-- C15, as stated: in the run of `paging_test` with `optimal_swap` and 3 frames
on `1,2,3,4,1,2,5,1,2,3,4,5` the frames are `5, 2, 1` at position 9; the pages 2
(slot 1) and 1 (slot 2) do not occur after position 9, and `optimal_swap` returns
the slot 2, not the lowest slot 1 among them. -/
theorem optimal_tie_not_lowest_slot :
    (paging_run belady_string 3 optimal_swap 9).map State.frames = some [5, 2, 1] ∧
    (2 : Int) ∉ (pages belady_string).drop (9 + 1) ∧
    (1 : Int) ∉ (pages belady_string).drop (9 + 1) ∧
    optimal_swap belady_string [5, 2, 1] 3 9 = some 2 := by
  decide

/-- C15, amended: on a full frame table, for a reference string over the pages
`1 .. PAGE_COUNT` and a position `p` such that two or more resident pages do not
occur after `p`, `optimal_swap` returns the slot of the numerically smallest of
these pages (ascending page ids, not ascending slot indices). -/
theorem optimal_tie_among_several (refstr frames : List Int) (frameCount : Int)
    (p : Nat) (hv : valid_string refstr) (hfull : full_table frames)
    (hlen : (frames.length : Int) = frameCount)
    (hex : ∃ (j1 j2 : Nat) (hj1 : j1 < frames.length) (hj2 : j2 < frames.length),
      j1 ≠ j2 ∧ frames[j1] ∉ (pages refstr).drop (p + 1) ∧
      frames[j2] ∉ (pages refstr).drop (p + 1)) :
    ∃ k : Nat, ∃ hk : k < frames.length,
      optimal_swap refstr frames frameCount (p : Int) = some (k : Int) ∧
      frames[k] ∉ (pages refstr).drop (p + 1) ∧
      ∀ (j : Nat) (hj : j < frames.length),
        frames[j] ∉ (pages refstr).drop (p + 1) → frames[k] ≤ frames[j] := by
  subst hlen
  obtain ⟨j1, _, hj1, _, _, hnot, _⟩ := hex
  exact optimal_swap_never_used hv hfull (by omega) p ⟨j1, hj1, hnot⟩

/-- C15, amended, at `1,2,3,4,1,2,5,1,2,3,4,5`, position 9, with the frames
`5, 2, 1`. -/
theorem optimal_tie_among_several_witness :
    valid_string belady_string ∧ full_table [5, 2, 1] ∧
    (∃ (j1 j2 : Nat) (hj1 : j1 < [5, 2, 1].length) (hj2 : j2 < [5, 2, 1].length),
      j1 ≠ j2 ∧ ([5, 2, 1] : List Int)[j1] ∉ (pages belady_string).drop (9 + 1) ∧
      ([5, 2, 1] : List Int)[j2] ∉ (pages belady_string).drop (9 + 1)) ∧
    ∃ k : Nat, ∃ hk : k < [5, 2, 1].length,
      optimal_swap belady_string [5, 2, 1] 3 ((9 : Nat) : Int) = some (k : Int) ∧
      ([5, 2, 1] : List Int)[k] ∉ (pages belady_string).drop (9 + 1) ∧
      ∀ (j : Nat) (hj : j < [5, 2, 1].length),
        ([5, 2, 1] : List Int)[j] ∉ (pages belady_string).drop (9 + 1) →
          ([5, 2, 1] : List Int)[k] ≤ ([5, 2, 1] : List Int)[j] :=
  ⟨by decide, by decide, ⟨1, 2, by decide, by decide, by decide, by decide, by decide⟩,
    optimal_tie_among_several belady_string [5, 2, 1] 3 9 (by decide) (by decide) rfl
      ⟨1, 2, by decide, by decide, by decide, by decide, by decide⟩⟩

/-! ## The iterations of the main loop -/

/-- C16: in a run of `paging_test` (a reference string over the pages
`1 .. PAGE_COUNT`, at least one frame, either heuristic), the iteration from a
state `st` that is not at the end of the string is defined.  If the current page
is in a slot, it writes 1 to `hits[i]` and leaves `frames` and `fault_count`
unchanged; otherwise it writes 0 to `hits[i]`, adds 1 to `fault_count` and changes
exactly one slot of `frames`, which then holds the current page. -/
theorem step_effect (refstr : List Int) (frameCount : Int) (swap_heuristic : Heuristic)
    (m : Nat) (st : State) (hv : valid_string refstr) (hf : 1 ≤ frameCount)
    (hs : swap_heuristic = optimal_swap ∨ swap_heuristic = lru_swap)
    (hrun : paging_run refstr frameCount swap_heuristic m = some st)
    (hi : st.i < refstr.length) :
    ∃ st2, paging_step refstr frameCount swap_heuristic st = some st2 ∧
      paging_run refstr frameCount swap_heuristic (m + 1) = some st2 ∧
      (_atoi (char_at refstr st.i) ∈ st.frames →
        st2.hits[st.i]? = some (some 1) ∧ st2.frames = st.frames ∧
        st2.fault_count = st.fault_count) ∧
      (_atoi (char_at refstr st.i) ∉ st.frames →
        st2.hits[st.i]? = some (some 0) ∧ st2.fault_count = st.fault_count + 1 ∧
        ∃ k : Nat, ∃ hk : k < st.frames.length,
          st.frames[k] ≠ _atoi (char_at refstr st.i) ∧
          st2.frames = st.frames.set k (_atoi (char_at refstr st.i))) := by
  have hgood := reached_good hv hf hs hrun
  have hhl : st.i < st.hits.length := by rw [good_hits_length hgood]; exact hi
  rw [run_succ hv hrun hi]
  by_cases hmem : _atoi (char_at refstr st.i) ∈ st.frames
  · refine ⟨_, step_hit refstr frameCount swap_heuristic hhl hmem,
      step_hit refstr frameCount swap_heuristic hhl hmem, fun _ => ?_,
      fun h => absurd hmem h⟩
    exact ⟨List.getElem?_set_self hhl, rfl, rfl⟩
  · have hne : ∀ (k : Nat) (hk : k < st.frames.length),
        st.frames[k] ≠ _atoi (char_at refstr st.i) :=
      fun k hk e => hmem (e ▸ List.getElem_mem hk)
    by_cases h0 : (0 : Int) ∈ st.frames
    · obtain ⟨k, hk, _, _, hstep⟩ := step_open refstr frameCount swap_heuristic hhl hmem h0
      refine ⟨_, hstep, hstep, fun h => absurd h hmem, fun _ => ?_⟩
      exact ⟨List.getElem?_set_self hhl, rfl, k, hk, hne k hk, rfl⟩
    · obtain ⟨k, hk, hswap⟩ := reached_swap hv hf hs hgood hi h0
      have hstep := step_full refstr frameCount swap_heuristic hhl hmem h0 hk hswap
      refine ⟨_, hstep, hstep, fun h => absurd h hmem, fun _ => ?_⟩
      exact ⟨List.getElem?_set_self hhl, rfl, k, hk, hne k hk, rfl⟩

/-- C16, at `1,2,3,4,1,2,5,1,2,3,4,5` with 3 frames and `optimal_swap`, from the
state after 3 iterations. -/
theorem step_effect_witness :
    valid_string belady_string ∧
    paging_run belady_string 3 optimal_swap 3 = some belady_state_3 ∧
    ∃ st2, paging_step belady_string 3 optimal_swap belady_state_3 = some st2 ∧
      paging_run belady_string 3 optimal_swap (3 + 1) = some st2 ∧
      (_atoi (char_at belady_string belady_state_3.i) ∈ belady_state_3.frames →
        st2.hits[belady_state_3.i]? = some (some 1) ∧
        st2.frames = belady_state_3.frames ∧
        st2.fault_count = belady_state_3.fault_count) ∧
      (_atoi (char_at belady_string belady_state_3.i) ∉ belady_state_3.frames →
        st2.hits[belady_state_3.i]? = some (some 0) ∧
        st2.fault_count = belady_state_3.fault_count + 1 ∧
        ∃ k : Nat, ∃ hk : k < belady_state_3.frames.length,
          belady_state_3.frames[k] ≠ _atoi (char_at belady_string belady_state_3.i) ∧
          st2.frames
            = belady_state_3.frames.set k (_atoi (char_at belady_string belady_state_3.i))) :=
  ⟨by decide, by decide,
    step_effect belady_string 3 optimal_swap 3 belady_state_3 (by decide) (by decide)
      (Or.inl rfl) (by decide) (by decide)⟩

/-- C17: whenever the current page is in a slot of `frames` or some slot is
empty, the iteration of the main loop is the same whatever the function passed as
`swap_heuristic`: the heuristic can only be called when no slot is 0 and no slot
holds the page.  This holds from every state, so in every run. -/
theorem policy_only_on_capacity_miss (refstr : List Int) (frameCount : Int)
    (swap1 swap2 : Heuristic) (st : State)
    (h : _atoi (char_at refstr st.i) ∈ st.frames ∨ (0 : Int) ∈ st.frames) :
    paging_step refstr frameCount swap1 st = paging_step refstr frameCount swap2 st :=
  step_no_swap refstr frameCount swap1 swap2 st h

/-- C17, at `1,2,3,4,1,2,5,1,2,3,4,5` with 3 frames, from the initial state (the
slots are empty), for `optimal_swap` and a heuristic that always fails. -/
theorem policy_only_on_capacity_miss_witness :
    (_atoi (char_at belady_string (paging_init belady_string 3).i)
        ∈ (paging_init belady_string 3).frames ∨
      (0 : Int) ∈ (paging_init belady_string 3).frames) ∧
    paging_step belady_string 3 optimal_swap (paging_init belady_string 3)
      = paging_step belady_string 3 (fun _ _ _ _ => none) (paging_init belady_string 3) :=
  ⟨by decide,
    policy_only_on_capacity_miss belady_string 3 optimal_swap (fun _ _ _ _ => none)
      (paging_init belady_string 3) (by decide)⟩

/-- C18: in a run of `paging_test` (a reference string over the pages
`1 .. PAGE_COUNT`, at least one frame, either heuristic), at every state where the
heuristic is called (the page is in no slot and no slot is empty) it returns an
index `k` with `0 ≤ k < frameCount`, never `-1`, and the store `frames[k]` is
within the array. -/
theorem swap_in_bounds_in_run (refstr : List Int) (frameCount : Int)
    (swap_heuristic : Heuristic) (m : Nat) (st : State) (hv : valid_string refstr)
    (hf : 1 ≤ frameCount)
    (hs : swap_heuristic = optimal_swap ∨ swap_heuristic = lru_swap)
    (hrun : paging_run refstr frameCount swap_heuristic m = some st)
    (hi : st.i < refstr.length)
    (_hmiss : _atoi (char_at refstr st.i) ∉ st.frames)
    (hfull : (0 : Int) ∉ st.frames) :
    ∃ k : Int, swap_heuristic refstr st.frames frameCount (st.i : Int) = some k ∧
      0 ≤ k ∧ k < frameCount ∧ k ≠ -1 ∧
      ∃ frames2, arr_set st.frames k (_atoi (char_at refstr st.i)) = some frames2 := by
  have hgood := reached_good hv hf hs hrun
  obtain ⟨k, hk, hswap⟩ := reached_swap hv hf hs hgood hi hfull
  have hlen := hgood.frames_len
  refine ⟨k, hswap, by omega, by omega, by omega, _, arr_set_nat hk _⟩

/-- C18, at `1,2,3,4,1,2,5,1,2,3,4,5` with 3 frames and `optimal_swap`, from the
state after 3 iterations (the frames hold 3, 2, 1 and the page is 4). -/
theorem swap_in_bounds_in_run_witness :
    valid_string belady_string ∧
    paging_run belady_string 3 optimal_swap 3 = some belady_state_3 ∧
    _atoi (char_at belady_string belady_state_3.i) ∉ belady_state_3.frames ∧
    (0 : Int) ∉ belady_state_3.frames ∧
    ∃ k : Int,
      optimal_swap belady_string belady_state_3.frames 3 (belady_state_3.i : Int) = some k ∧
      0 ≤ k ∧ k < 3 ∧ k ≠ -1 ∧
      ∃ frames2, arr_set belady_state_3.frames k
        (_atoi (char_at belady_string belady_state_3.i)) = some frames2 :=
  ⟨by decide, by decide, by decide, by decide,
    swap_in_bounds_in_run belady_string 3 optimal_swap 3 belady_state_3 (by decide)
      (by decide) (Or.inl rfl) (by decide) (by decide) (by decide) (by decide)⟩

/-- C19: in a run of `paging_test` with `lru_swap` (a reference string over the
pages `1 .. PAGE_COUNT`, `c ≥ 1` frames), the state after `m` iterations has
processed the first `min m length` pages, and the set of the pages in `frames` is
the set of the first `c` pages of the LRU stack of these pages, that is of their
`min c d` most recently referenced distinct pages, `d` being their number of
distinct pages.  Whenever `lru_swap` is called from that state, its backward scan
leaves exactly one cell of `last_use` holding 1. -/
theorem lru_residency (refstr : List Int) (c : Int) (m : Nat)
    (hv : valid_string refstr) (hc : 1 ≤ c) :
    ∃ st, paging_run refstr c lru_swap m = some st ∧ st.i = min m refstr.length ∧
      resident st.frames
        = ((recency ((pages refstr).take st.i).reverse).take c.toNat).toFinset ∧
      (resident st.frames).card = min c.toNat ((pages refstr).take st.i).dedup.length ∧
      (st.i < refstr.length → _atoi (char_at refstr st.i) ∉ st.frames →
        (0 : Int) ∉ st.frames →
        ∃ a, lru_flags refstr st.frames c (st.i : Int) = some a ∧
          ∃! q : Int, 1 ≤ q ∧ q ≤ (PAGE_COUNT : Int) ∧ cell_get a q = some 1) := by
  have e : ((c.toNat : Nat) : Int) = c := Int.toNat_of_nonneg (by omega)
  obtain ⟨st, hrun, hgood, hres, hi⟩ := run_lru hv hc m
  refine ⟨st, hrun, hi, hres, ?_, fun hlt _ h0 => ?_⟩
  · rw [hres, card_take_toFinset (recency_nodup _), recency_length]
    congr 1
    rw [← List.card_toFinset, ← List.card_toFinset, List.toFinset_reverse]
  · have hfull := full_of_inv hgood.inv h0
    have hlen := hgood.frames_len
    obtain ⟨a, ha, hrep⟩ := lru_flags_spec hv hfull (by omega) (Nat.le_of_lt hlt)
    rw [hlen, e] at ha
    refine ⟨a, ha, rep_one_flag hrep (fun q hq => ?_) ?_⟩
    · exact full_table_range hfull q (List.mem_toFinset.mp (scanF_subset _ _ _ hq))
    · obtain ⟨j, hj⟩ : ∃ j, c.toNat = j + 1 := ⟨c.toNat - 1, by omega⟩
      rw [hj] at hres hlen
      rw [hlen, Nat.add_sub_cancel, ← resident_full h0]
      exact lru_one_flag (by rw [card_resident_full hfull, hlen]) hres

/-- C19, at `1,2,3,4,1,2,5,1,2,3,4,5` with 3 frames, after 7 iterations. -/
theorem lru_residency_witness :
    valid_string belady_string ∧ (1 : Int) ≤ 3 ∧
    ∃ st, paging_run belady_string 3 lru_swap 7 = some st ∧
      st.i = min 7 belady_string.length ∧
      resident st.frames
        = ((recency ((pages belady_string).take st.i).reverse).take (3 : Int).toNat).toFinset ∧
      (resident st.frames).card
        = min (3 : Int).toNat ((pages belady_string).take st.i).dedup.length ∧
      (st.i < belady_string.length → _atoi (char_at belady_string st.i) ∉ st.frames →
        (0 : Int) ∉ st.frames →
        ∃ a, lru_flags belady_string st.frames 3 (st.i : Int) = some a ∧
          ∃! q : Int, 1 ≤ q ∧ q ≤ (PAGE_COUNT : Int) ∧ cell_get a q = some 1) :=
  ⟨by decide, by decide, lru_residency belady_string 3 7 (by decide) (by decide)⟩

/-- C20: in a run of `paging_test` (a reference string over the pages
`1 .. PAGE_COUNT`, at least one frame, either heuristic), in the state after any
number `m` of iterations every slot before an empty slot is empty, so that the
empty slots come first and the occupied ones last; and on a miss while a slot is
empty, the page is stored in the empty slot of the highest index. -/
theorem empty_slots_first (refstr : List Int) (frameCount : Int)
    (swap_heuristic : Heuristic) (m : Nat) (hv : valid_string refstr)
    (hf : 1 ≤ frameCount)
    (hs : swap_heuristic = optimal_swap ∨ swap_heuristic = lru_swap) :
    ∃ st, paging_run refstr frameCount swap_heuristic m = some st ∧
      (∀ (a b : Nat) (ha : a < st.frames.length) (hb : b < st.frames.length), a ≤ b →
        st.frames[b] = 0 → st.frames[a] = 0) ∧
      (st.i < refstr.length → _atoi (char_at refstr st.i) ∉ st.frames →
        (0 : Int) ∈ st.frames →
        ∃ k : Nat, ∃ hk : k < st.frames.length, st.frames[k] = 0 ∧
          (∀ (j : Nat) (hj : j < st.frames.length), k < j → st.frames[j] ≠ 0) ∧
          ∃ st2, paging_run refstr frameCount swap_heuristic (m + 1) = some st2 ∧
            st2.frames = st.frames.set k (_atoi (char_at refstr st.i))) := by
  obtain ⟨st, hrun, hgood, hz⟩ := run_zeros_first hv hf hs m
  refine ⟨st, hrun, hz, fun hi hmem h0 => ?_⟩
  have hhl : st.i < st.hits.length := by rw [good_hits_length hgood]; exact hi
  obtain ⟨k, hk, hk0, hlast, hstep⟩ := step_open refstr frameCount swap_heuristic hhl hmem h0
  exact ⟨k, hk, hk0, hlast, _, by rw [run_succ hv hrun hi]; exact hstep, rfl⟩

/-- C20, at `1,2,3,4,1,2,5,1,2,3,4,5` with 3 frames and `lru_swap`, after 1
iteration. -/
theorem empty_slots_first_witness :
    valid_string belady_string ∧ (1 : Int) ≤ 3 ∧
    ∃ st, paging_run belady_string 3 lru_swap 1 = some st ∧
      (∀ (a b : Nat) (ha : a < st.frames.length) (hb : b < st.frames.length), a ≤ b →
        st.frames[b] = 0 → st.frames[a] = 0) ∧
      (st.i < belady_string.length → _atoi (char_at belady_string st.i) ∉ st.frames →
        (0 : Int) ∈ st.frames →
        ∃ k : Nat, ∃ hk : k < st.frames.length, st.frames[k] = 0 ∧
          (∀ (j : Nat) (hj : j < st.frames.length), k < j → st.frames[j] ≠ 0) ∧
          ∃ st2, paging_run belady_string 3 lru_swap (1 + 1) = some st2 ∧
            st2.frames = st.frames.set k (_atoi (char_at belady_string st.i))) :=
  ⟨by decide, by decide,
    empty_slots_first belady_string 3 lru_swap 1 (by decide) (by decide) (Or.inr rfl)⟩

end PageRep
